import Mathlib

/-!
Verification of the storm probabilistic model checker core against its
natural-language specification.

The development shallowly embeds the relevant source functions:

* `SparseSmgRpatlHelper::computeStrongAttractors`
  (src/storm/modelchecker/rpatl/helper/SparseSmgRpatlHelper.cpp)
* `SparseDtmcEliminationModelChecker` and its helpers
  (src/modelchecker/reachability/SparseDtmcEliminationModelChecker.cpp)
* `ExplicitDFTModelBuilderApprox::changeMatrixLowerBound` and
  `changeMatrixUpperBound` (src/builder/ExplicitDFTModelBuilderApprox.cpp)

Machine integers are modelled as `Nat`/`Fin n` (no overflow is relevant to the
verified properties), bit vectors as `Finset`, and the abstract scalar ring V
as a linear ordered field.  Loops are modelled by structural recursion on an
explicit fuel argument so that every definition is executable; top-level
wrappers supply fuel that provably suffices.
-/

set_option linter.unusedSectionVars false

namespace Storm

open Finset

/-! ## Part 1: definitions

### 1.1 Stochastic game matrices and `computeStrongAttractors`

A stochastic multi-player game matrix with row groups: group of state `s`
spans the transition-row indices `[groupStart s, groupStart (s+1))`, and each
transition row has a set of successor columns (the support of its probability
distribution; the attractor computation never reads the probability values,
only `entry.getColumn()`).
-/

/-- The transition structure of a stochastic game over `n` states, as read by
`computeStrongAttractors`: `groupStart` is the `row_group_indices` array and
`rowSupport r` is the set of columns of the entries of transition row `r`. -/
structure GameMatrix (n : ℕ) where
  groupStart : ℕ → ℕ
  rowSupport : ℕ → Finset (Fin n)

namespace GameMatrix

variable {n : ℕ}

/-- `transitionMatrix.getRowGroupIndices(s)`: the row indices of state `s`. -/
def rowGroup (g : GameMatrix n) (s : Fin n) : Finset ℕ :=
  Finset.Ico (g.groupStart s.val) (g.groupStart (s.val + 1))

/-- The row of state `t` in `backwardTransitions` (the transpose of the
forward matrix, whose row groups collapse to their source state): the set of
states with some transition row containing `t` in its support. -/
def predecessors (g : GameMatrix n) (t : Fin n) : Finset (Fin n) :=
  Finset.univ.filter (fun p => ∃ r ∈ g.rowGroup p, t ∈ g.rowSupport r)

/-- `isGoodState` of `computeStrongAttractors`: a maximizer-owned state needs
one row of its group marked as used, any other state needs all of them. -/
def isGoodState (g : GameMatrix n) (maximizerCoalition : Finset (Fin n))
    (marks : Finset ℕ) (p : Fin n) : Prop :=
  if p ∈ maximizerCoalition then ∃ r ∈ g.rowGroup p, r ∈ marks
  else ∀ r ∈ g.rowGroup p, r ∈ marks

instance (g : GameMatrix n) (maxC : Finset (Fin n)) (marks : Finset ℕ) (p : Fin n) :
    Decidable (isGoodState g maxC marks p) := by
  unfold isGoodState; infer_instance

/-- One `while` loop of `computeStrongAttractors`, by recursion on fuel.
State: `att` is `strongAttractors`, `work` is `workingStateSet`, `marks` is
`transitionsLeadingToAttractors`.  Each iteration collects the predecessors of
`work` not yet in `att`, marks their allowed transition rows that enter `att`,
and admits the allowed predecessors that pass `isGoodState`. -/
def strongAttractorsGo (g : GameMatrix n) (maximizerCoalition allowedStateSet : Finset (Fin n))
    (allowedTransitions : Finset ℕ) :
    ℕ → Finset (Fin n) → Finset (Fin n) → Finset ℕ → Finset (Fin n) × Finset ℕ
  | 0, att, _, marks => (att, marks)
  | fuel + 1, att, work, marks =>
    if work = ∅ then (att, marks)
    else
      let preds := (work.biUnion (fun w => g.predecessors w)).filter (fun p => p ∉ att)
      let marks' := marks ∪
        (preds.biUnion (fun p => g.rowGroup p)).filter
          (fun r => r ∈ allowedTransitions ∧ (g.rowSupport r ∩ att).Nonempty)
      let newStates := (preds ∩ allowedStateSet).filter
          (fun p => isGoodState g maximizerCoalition marks' p ∧ p ∉ att)
      strongAttractorsGo g maximizerCoalition allowedStateSet allowedTransitions
        fuel (att ∪ newStates) newStates marks'

/-- `SparseSmgRpatlHelper::computeStrongAttractors`: returns the pair of the
attractor state set and the set of used transition rows.  The `while` loop is
run with fuel `n + 2`, which suffices because every iteration but the last
adds at least one of the `n` states. -/
def computeStrongAttractors (g : GameMatrix n) (maximizerCoalition : Finset (Fin n))
    (targetStateSet allowedStateSet : Finset (Fin n)) (allowedTransitions : Finset ℕ) :
    Finset (Fin n) × Finset ℕ :=
  strongAttractorsGo g maximizerCoalition allowedStateSet allowedTransitions
    (n + 2) targetStateSet targetStateSet ∅

/-- The admission condition of `computeStrongAttractors` relative to a state
set `X`: the state is allowed; a maximizer-owned state must have some allowed
transition row entering `X`, any other (minimizer-owned) state must have a
nonempty row group all of whose rows are allowed and enter `X`. -/
def justified (g : GameMatrix n) (maximizerCoalition allowedStateSet : Finset (Fin n))
    (allowedTransitions : Finset ℕ) (X : Finset (Fin n)) (p : Fin n) : Prop :=
  p ∈ allowedStateSet ∧
    (if p ∈ maximizerCoalition then
      ∃ r ∈ g.rowGroup p, r ∈ allowedTransitions ∧ (g.rowSupport r ∩ X).Nonempty
    else
      (g.rowGroup p).Nonempty ∧
        ∀ r ∈ g.rowGroup p, r ∈ allowedTransitions ∧ (g.rowSupport r ∩ X).Nonempty)

end GameMatrix

/-- The concrete two-state game used to witness and refute claims about
`computeStrongAttractors`: state 0 is minimizer-owned with two transition rows
(row 0 into state 1, row 1 a self-loop), state 1 has the single row 2 (a
self-loop). -/
def gameA : GameMatrix 2 where
  groupStart := fun s => if s = 0 then 0 else if s = 1 then 2 else 3
  rowSupport := fun r => if r = 0 then {1} else if r = 1 then {0} else if r = 2 then {1} else ∅

/-! ### 1.2 The dynamic-penalty state priority queue

`DynamicPenaltyStatePriorityQueue` from
SparseDtmcEliminationModelChecker.cpp.  `priorityQueue` is a `std::set` of
(state, penalty) pairs, modelled by its set of elements; `stateToPriorityMapping`
is the auxiliary hash map, modelled as a function to `Option`; the penalty
function is stored in the queue and recomputed on `update`.  The matrix and
vector arguments of the penalty function are abstracted by type parameters
`M` (flexible matrices) and `W` (the one-step probability vector). -/

/-- The dynamic-penalty priority queue: an ordered-set of (state, penalty)
pairs together with the state-to-penalty hash map and the penalty function. -/
structure DynamicPenaltyStatePriorityQueue (M W : Type) where
  priorityQueue : Finset (ℕ × ℕ)
  stateToPriorityMapping : ℕ → Option ℕ
  penaltyFunction : ℕ → M → M → W → ℕ

namespace DynamicPenaltyStatePriorityQueue

variable {M W : Type}

/-- `DynamicPenaltyStatePriorityQueue::update`: if the state has no stored
priority, do nothing; otherwise recompute the penalty, and if it changed,
erase the old (state, penalty) pair, insert the new one, and update the
mapping. -/
def update (q : DynamicPenaltyStatePriorityQueue M W) (state : ℕ)
    (transitionMatrix backwardTransitions : M) (oneStepProbabilities : W) :
    DynamicPenaltyStatePriorityQueue M W :=
  match q.stateToPriorityMapping state with
  | none => q
  | some lastPriority =>
    if q.penaltyFunction state transitionMatrix backwardTransitions oneStepProbabilities
        = lastPriority then q
    else
      { q with
        priorityQueue := insert
          (state, q.penaltyFunction state transitionMatrix backwardTransitions
            oneStepProbabilities)
          (q.priorityQueue.erase (state, lastPriority))
        stateToPriorityMapping := fun s =>
          if s = state then
            some (q.penaltyFunction state transitionMatrix backwardTransitions
              oneStepProbabilities)
          else q.stateToPriorityMapping s }

end DynamicPenaltyStatePriorityQueue

/-- A concrete dynamic-penalty queue used as witness input: one entry
(state 5, penalty 3), and a penalty function returning the state itself. -/
def qA : DynamicPenaltyStatePriorityQueue Unit Unit where
  priorityQueue := {(5, 3)}
  stateToPriorityMapping := fun s => if s = 5 then some 3 else none
  penaltyFunction := fun s _ _ _ => s

/-! ### 1.3 The DFT builder's approximation bounds

`ExplicitDFTModelBuilderApprox::changeMatrixLowerBound` / `changeMatrixUpperBound`.
A skipped state's row holds a single provisional transition to the absorbing
failed state; the builder keeps, for each skipped state, the DFT state from
which the rates of the possible follow-up failures (failable and not-failable
basic events) can be read.  The matrix is modelled by the row
`matrix.getRow(state, 0)` of each state, as a list of (column, value) entries. -/

/-- The data of a skipped state's `DFTStatePointer` read by the bound
adjustments: the rates `getFailableBERate i` and `getNotFailableBERate i`. -/
structure SkippedStateInfo (V : Type) where
  failableBERates : List V
  notFailableBERates : List V

/-- Replace the value of the first entry of a row (the provisional transition
written for a skipped state), keeping its column. -/
def setFirstEntryValue {V : Type} : List (ℕ × V) → V → List (ℕ × V)
  | [], _ => []
  | (c, _) :: rest, v => (c, v) :: rest

/-- The lower-bound rate of a skipped state: `Σ rate_i` over all potential
follow-up failures (failable and not-failable basic events). -/
def lowerBoundRate {V : Type} [DivisionRing V] (info : SkippedStateInfo V) : V :=
  info.failableBERates.sum + info.notFailableBERates.sum

/-- The upper-bound rate of a skipped state: `1 / (Σ 1/rate_i)` over all
potential follow-up failures. -/
def upperBoundRate {V : Type} [DivisionRing V] (info : SkippedStateInfo V) : V :=
  1 / ((info.failableBERates.map (fun r => 1 / r)).sum +
    (info.notFailableBERates.map (fun r => 1 / r)).sum)

/-- `changeMatrixLowerBound`: for each skipped state, set the provisional
value of its single transition to the lower-bound rate. -/
def changeMatrixLowerBound {V : Type} [DivisionRing V]
    (skippedStates : List (ℕ × SkippedStateInfo V)) (matrix : ℕ → List (ℕ × V)) :
    ℕ → List (ℕ × V) :=
  skippedStates.foldl
    (fun m p => fun s => if s = p.1 then setFirstEntryValue (m s) (lowerBoundRate p.2) else m s)
    matrix

/-- `changeMatrixUpperBound`: for each skipped state, set the provisional
value of its single transition to the upper-bound rate. -/
def changeMatrixUpperBound {V : Type} [DivisionRing V]
    (skippedStates : List (ℕ × SkippedStateInfo V)) (matrix : ℕ → List (ℕ × V)) :
    ℕ → List (ℕ × V) :=
  skippedStates.foldl
    (fun m p => fun s => if s = p.1 then setFirstEntryValue (m s) (upperBoundRate p.2) else m s)
    matrix

/-! ### 1.4 Graph kernels

The DTMC drivers call `storm::utility::graph` kernels whose source is not
part of the provided files; they are modelled from the spec (§4.E).  All
kernels run on a transition function `p : α → α → V` over a finite state
type `α` (an edge is an entry with nonzero value); iterated set operations
are written with `Function.iterate`, and `Fintype.card α` iterations always
reach the fixed point. -/

section GraphKernels

variable {α : Type} [Fintype α] [DecidableEq α] {V : Type} [Zero V] [DecidableEq V]

/-- One backward-BFS layer of `perform_prob_greater_0`: add every `phi`-state
with a nonzero transition into the set. -/
def pg0Step (p : α → α → V) (phi : Finset α) (S : Finset α) : Finset α :=
  S ∪ phi.filter (fun s => ∃ q ∈ S, p s q ≠ 0)

/-- Modelled from the spec: `perform_prob_greater_0(backward, phi, psi)` with
a step bound — the states that can reach `psi` via `phi`-states within
`steps` steps (backward BFS from `psi` constrained to `phi`, with the
optional step bound). -/
def performProbGreater0Bounded (p : α → α → V) (phi psi : Finset α) (steps : ℕ) : Finset α :=
  (pg0Step p phi)^[steps] psi

/-- Modelled from the spec: `perform_prob_greater_0(backward, phi, psi)` —
the states that can reach `psi` via `phi`-states with positive probability. -/
def performProbGreater0 (p : α → α → V) (phi psi : Finset α) : Finset α :=
  (pg0Step p phi)^[Fintype.card α] psi

/-- One peeling step of `perform_prob_1`: keep a candidate state if it is a
`psi`-state or none of its outgoing transitions leaves the candidate set. -/
def prob1Step (p : α → α → V) (psi G : Finset α) (S : Finset α) : Finset α :=
  G.filter (fun s => s ∈ psi ∨ ∀ q, p s q ≠ 0 → q ∈ S)

/-- Modelled from the spec: `perform_prob_1(backward, phi, psi)` — the states
that reach `psi` with probability one via `phi`-states, computed as the
iterative greatest fixpoint that starts with the `perform_prob_greater_0`
result and repeatedly removes a (non-`psi`) state if any of its outgoing
transitions leaves the candidate set. -/
def performProb1 (p : α → α → V) (phi psi : Finset α) : Finset α :=
  (prob1Step p psi (performProbGreater0 p phi psi))^[Fintype.card α]
    (performProbGreater0 p phi psi)

/-- One forward-BFS layer of `get_reachable_states`: add every successor of a
non-target member that is allowed (or a target, which is included but not
expanded). -/
def reachStep (p : α → α → V) (allowed target : Finset α) (R : Finset α) : Finset α :=
  R ∪ Finset.univ.filter
    (fun q => (q ∈ allowed ∨ q ∈ target) ∧ ∃ s ∈ R, s ∉ target ∧ p s q ≠ 0)

/-- Modelled from the spec: `get_reachable_states(transitions, initial,
allowed, target, bounded := true, steps)` — BFS from `initial`, staying in
`allowed`, stopping at `target`, with a step bound. -/
def getReachableStatesBounded (p : α → α → V) (initial allowed target : Finset α)
    (steps : ℕ) : Finset α :=
  (reachStep p allowed target)^[steps] initial

/-- Modelled from the spec: `get_reachable_states(transitions, initial,
allowed, target)` — BFS from `initial`, staying in `allowed`, stopping at
`target` (target states are included but not expanded). -/
def getReachableStates (p : α → α → V) (initial allowed target : Finset α) : Finset α :=
  (reachStep p allowed target)^[Fintype.card α] initial

/-- Modelled from the spec: `get_distances(forward, initial)` — the BFS level
of each state from `initial` (0 for unreachable states, matching the
default-initialized distance vector of the source). -/
def getDistances (p : α → α → V) (initial : Finset α) (s : α) : ℕ :=
  (((Finset.range (Fintype.card α + 1)).filter
    (fun k => s ∈ (reachStep p Finset.univ ∅)^[k] initial)).min).untop' 0

end GraphKernels

/-! ### 1.5 Reachability probabilities (the mathematical specification)

The exact probability of `φ U ψ` — of reaching a `psi`-state via `phi`-states
— is defined over ℝ as the supremum of the bounded reachability value
iteration.  These definitions are the semantic anchor for the claims; they
are not translated from code. -/

section Semantics

variable {α : Type} [Fintype α] [DecidableEq α]

/-- The probability of reaching a `psi`-state via `phi`-states within `k`
transitions (value-iteration from below). -/
def probReachWithin (p : α → α → ℝ) (phi psi : Finset α) : ℕ → α → ℝ
  | 0, _ => 0
  | k + 1, s =>
    if s ∈ psi then 1
    else if s ∈ phi then ∑ q, p s q * probReachWithin p phi psi k q
    else 0

/-- The exact probability of `φ U ψ` from state `s`: the supremum of the
bounded reachability probabilities. -/
noncomputable def probReach (p : α → α → ℝ) (phi psi : Finset α) (s : α) : ℝ :=
  ⨆ k, probReachWithin p phi psi k s

end Semantics

/-! ### 1.6 The state eliminator and prioritized elimination

Modelled from the spec (§4.H): the sources of `src/solver/stateelimination/`
are not part of the provided files, only their call sites.  The flexible
forward matrix and its backward mirror (kept consistent, cf. the
`checkConsistent` assertion of the call sites) are represented jointly by the
entry function `M : σ → σ → V` (0 for an absent entry), and the scalar vector
by `vals : σ → V`. -/

section Elimination

variable {σ : Type} [Fintype σ] [DecidableEq σ] {V : Type} [Field V]

/-- Modelled from the spec: `StateEliminator::eliminateState`.  With
`L = M s s` the self-loop and `loopFactor = 1/(1−L)`: the row of `s` is
scaled by `loopFactor` and its self-loop removed, each predecessor edge
`t → s` with weight `a` is replaced by the combination with the scaled row
(`M t q += a · loopFactor · M s q`), all entries `· → s` are removed, the
value of `s` is scaled (`vals s *= loopFactor` — forced by the §4.H invariant
that eliminated values are exact), and each predecessor's value is
incremented by `a · loopFactor · vals s`.  With `removeForwardTransitions`
the (scaled) row of `s` is cleared instead of kept. -/
def eliminateState (M : σ → σ → V) (vals : σ → V) (s : σ)
    (removeForwardTransitions : Bool) : (σ → σ → V) × (σ → V) :=
  (fun t q =>
    if t = s then
      (if removeForwardTransitions then 0
       else if q = s then 0 else (1 / (1 - M s s)) * M s q)
    else if q = s then 0
    else M t q + M t s * ((1 / (1 - M s s)) * M s q),
   fun t =>
    if t = s then (1 / (1 - M s s)) * vals s
    else vals t + M t s * ((1 / (1 - M s s)) * vals s))

/-- `performPrioritizedStateElimination`: eliminate the states in the order
popped from the priority queue (the queue is abstracted by the list `order`);
a non-initial state in initial-states-only mode has its forward transitions
removed and its value zeroed after the elimination. -/
def performPrioritizedStateElimination (initialStates : Finset σ)
    (computeForInitialStatesOnly : Bool) (order : List σ)
    (M : σ → σ → V) (vals : σ → V) : (σ → σ → V) × (σ → V) :=
  order.foldl
    (fun Mv state =>
      if computeForInitialStatesOnly ∧ state ∉ initialStates then
        ((eliminateState Mv.1 Mv.2 state true).1,
         Function.update (eliminateState Mv.1 Mv.2 state true).2 state 0)
      else eliminateState Mv.1 Mv.2 state false)
    (M, vals)

/-- The escape property driving termination of the elimination: from `t`,
avoiding the states of `elim` and following nonzero entries (never a
self-loop), a state with a positive value is reachable within `k` steps. -/
def escapes [LinearOrder V] (M : σ → σ → V) (vals : σ → V) (elim : Finset σ) :
    ℕ → σ → Prop
  | 0, t => 0 < vals t
  | k + 1, t => 0 < vals t ∨ ∃ u, u ∉ elim ∧ u ≠ t ∧ 0 < M t u ∧
      escapes M vals elim k u

end Elimination

/-! ### 1.7 `computeUntilProbabilities` -/

section UntilDriver

variable {α : Type} [Fintype α] [DecidableEq α] {V : Type} [Field V] [DecidableEq V]

/-- `performProb01(...).first`: the states with until-probability exactly 0,
the complement of `perform_prob_greater_0`. -/
def statesWithProbability0 (p : α → α → V) (phi psi : Finset α) : Finset α :=
  Finset.univ \ performProbGreater0 p phi psi

/-- `performProb01(...).second`: the states with until-probability exactly 1. -/
def statesWithProbability1 (p : α → α → V) (phi psi : Finset α) : Finset α :=
  performProb1 p phi psi

/-- `maybeStates = ~(statesWithProbability0 | statesWithProbability1)`. -/
def maybeStates (p : α → α → V) (phi psi : Finset α) : Finset α :=
  Finset.univ \ (statesWithProbability0 p phi psi ∪ statesWithProbability1 p phi psi)

/-- `getConstrainedRowSumVector(maybeStates, statesWithProbability1)`: the
one-step probability of entering a probability-1 state. -/
def oneStepProbabilities (p : α → α → V) (phi psi : Finset α)
    (a : {s // s ∈ maybeStates p phi psi}) : V :=
  ∑ q ∈ statesWithProbability1 p phi psi, p a.1 q

/-- `getSubmatrix(false, maybeStates, maybeStates)`: the submatrix over the
maybe states with columns remapped to the compacted space, modelled by
indexing with the subtype of maybe states. -/
def untilSubmatrix (p : α → α → V) (phi psi : Finset α)
    (a b : {s // s ∈ maybeStates p phi psi}) : V :=
  p a.1 b.1

/-- `SparseDtmcEliminationModelChecker::computeUntilProbabilities` (the
`computeForInitialStatesOnly = false` path, which computes a value for every
state and hence for every initial state; the initial-states-only mode only
additionally restricts the maybe states to reachable ones and filters the
result vector): compute the probability-0/1 partition, eliminate every maybe
state (in the order popped from the settings-selected priority queue,
abstracted by `order`) on the flexible submatrix, and assemble the result
vector from the eliminated values and the qualitative states. -/
def computeUntilProbabilities (p : α → α → V) (phi psi : Finset α)
    (order : List {s // s ∈ maybeStates p phi psi}) : α → V :=
  fun s =>
    if hs : s ∈ maybeStates p phi psi then
      (performPrioritizedStateElimination ∅ false order
        (untilSubmatrix p phi psi) (oneStepProbabilities p phi psi)).2 ⟨s, hs⟩
    else if s ∈ statesWithProbability1 p phi psi then 1 else 0

end UntilDriver

/-! ### 1.8 A concrete DTMC for the until-probability driver

A three-state chain: state 0 moves to states 1 and 2 with probability 1/2
each, states 1 and 2 are absorbing; `phi` is everything and `psi = {1}`, so
state 1 has probability one, state 2 probability zero, and state 0 is the
single maybe state with exact probability 1/2. -/

/-- The transition matrix of the concrete three-state chain. -/
noncomputable def pU : Fin 3 → Fin 3 → ℝ := fun s q =>
  if s = 0 then (if q = 0 then 0 else 1/2) else if q = s then 1 else 0

/-- The `phi`-states of the concrete instance: all states. -/
def phiU : Finset (Fin 3) := Finset.univ

/-- The `psi`-states of the concrete instance: state 1. -/
def psiU : Finset (Fin 3) := {1}

/-- The elimination order of the concrete instance: the single maybe
state 0 (the membership computation is inlined because the list's element
type depends on it). -/
def orderU : List {s // s ∈ maybeStates pU phiU psiU} :=
  [⟨0, by
    have h1 : pg0Step pU phiU psiU = {0, 1} := by
      rw [pg0Step]
      ext t
      fin_cases t <;> simp [pU, phiU, psiU]
    have h2 : pg0Step pU phiU {0, 1} = {0, 1} := by
      rw [pg0Step]
      ext t
      fin_cases t <;> simp [pU, phiU]
    have hc : Fintype.card (Fin 3) = 2 + 1 := rfl
    have hG : performProbGreater0 pU phiU psiU = {0, 1} := by
      rw [performProbGreater0, hc, Function.iterate_succ_apply, h1,
        Function.iterate_fixed h2]
    have p1a : prob1Step pU psiU ({0, 1} : Finset (Fin 3)) {0, 1} = {1} := by
      rw [prob1Step]
      ext t
      fin_cases t <;> simp [pU, psiU, Fin.forall_fin_succ]
    have p1b : prob1Step pU psiU ({0, 1} : Finset (Fin 3)) {1} = {1} := by
      rw [prob1Step]
      ext t
      fin_cases t <;> simp [pU, psiU, Fin.forall_fin_succ]
    have h1eq : performProb1 pU phiU psiU = {1} := by
      rw [performProb1, hG, hc, Function.iterate_succ_apply, p1a,
        Function.iterate_fixed p1b]
    rw [maybeStates, statesWithProbability0, statesWithProbability1, hG, h1eq]
    decide⟩]

/-! ### 1.9 `computeBoundedUntilProbabilities`

The bounded-until driver does not eliminate: it builds the submatrix of the
states with positive step-bounded reachability and iterates multiply-and-add
rounds.  In initial-states-only mode it additionally restricts to the states
reachable from the initial states and zeroes the rows and right-hand-side
entries of states whose BFS distance from the initial states exceeds the
remaining step budget. -/

section BoundedUntilDriver

variable {α : Type} [Fintype α] [DecidableEq α]
variable {σ : Type} [Fintype σ] [DecidableEq σ]

/-- One round of the bounded-until loop: `submatrix.multiplyWithVector`
followed by `addVectors(tmp, b, subresult)`. -/
def mulAdd (A : σ → σ → ℝ) (b : σ → ℝ) (x : σ → ℝ) : σ → ℝ :=
  fun a => (∑ q, A a q * x q) + b a

/-- `statesWithProbabilityGreater0` of the bounded-until driver: the
step-bounded `performProbGreater0` result with the `psi`-states removed
(`statesWithProbabilityGreater0 &= ~psiStates`). -/
noncomputable def boundedMaybeStates (p : α → α → ℝ) (phi psi : Finset α) (k : ℕ) : Finset α :=
  performProbGreater0Bounded p phi psi k \ psi

/-- The bounded-until submatrix over the maybe states. -/
def boundedSubmatrix (p : α → α → ℝ) (phi psi : Finset α) (k : ℕ)
    (a b : {s // s ∈ boundedMaybeStates p phi psi k}) : ℝ :=
  p a.1 b.1

/-- `getConstrainedRowSumVector(statesWithProbabilityGreater0, psiStates)`:
the one-step probability of entering a `psi`-state. -/
def boundedOneStep (p : α → α → ℝ) (phi psi : Finset α) (k : ℕ)
    (a : {s // s ∈ boundedMaybeStates p phi psi k}) : ℝ :=
  ∑ q ∈ psi, p a.1 q

/-- `computeBoundedUntilProbabilities` (all-states mode): determine the
states with positive step-bounded reachability, initialize the sub-result
with the one-step vector (which accounts for one step, so the time bound is
decremented first), run `timeBound - 1` multiply-and-add rounds, and
assemble the result: 1 on `psi`, the sub-result on the maybe states, 0
elsewhere (also covering the further-computation-not-needed shortcut, whose
maybe set is empty). -/
noncomputable def computeBoundedUntilProbabilities (p : α → α → ℝ) (phi psi : Finset α) (k : ℕ) :
    α → ℝ :=
  fun s =>
    if s ∈ psi then 1
    else if hs : s ∈ boundedMaybeStates p phi psi k then
      (mulAdd (boundedSubmatrix p phi psi k) (boundedOneStep p phi psi k))^[k - 1]
        (boundedOneStep p phi psi k) ⟨s, hs⟩
    else 0

/-- The maybe states of the initial-states-only mode:
`statesWithProbabilityGreater0 &= reachableStates` with the bounded
reachability search from the initial states. -/
noncomputable def boundedMaybeStatesInit (p : α → α → ℝ) (phi psi initial : Finset α) (k : ℕ) :
    Finset α :=
  (performProbGreater0Bounded p phi psi k \ psi) ∩
    getReachableStatesBounded p initial phi psi k

/-- The initial-states-only submatrix. -/
def boundedSubmatrixInit (p : α → α → ℝ) (phi psi initial : Finset α) (k : ℕ)
    (a b : {s // s ∈ boundedMaybeStatesInit p phi psi initial k}) : ℝ :=
  p a.1 b.1

/-- The initial-states-only one-step vector. -/
def boundedOneStepInit (p : α → α → ℝ) (phi psi initial : Finset α) (k : ℕ)
    (a : {s // s ∈ boundedMaybeStatesInit p phi psi initial k}) : ℝ :=
  ∑ q ∈ psi, p a.1 q

/-- `subInitialStates = initialStates % statesWithProbabilityGreater0`. -/
noncomputable def boundedSubInitial (p : α → α → ℝ) (phi psi initial : Finset α) (k : ℕ) :
    Finset {s // s ∈ boundedMaybeStatesInit p phi psi initial k} :=
  Finset.univ.filter (fun a => a.1 ∈ initial)

/-- `distancesFromInitialStates = getDistances(submatrix, subInitialStates, ...)`. -/
noncomputable def boundedDistances (p : α → α → ℝ) (phi psi initial : Finset α) (k : ℕ)
    (a : {s // s ∈ boundedMaybeStatesInit p phi psi initial k}) : ℕ :=
  getDistances (boundedSubmatrixInit p phi psi initial k)
    (boundedSubInitial p phi psi initial k) a

/-- The zeroing step of the initial-states-only mode: zero the submatrix row
and the right-hand-side entry of every state whose BFS distance from the
initial states exceeds the remaining step budget (dropping a state from
`relevantStates` only prevents re-zeroing an already zeroed row, which is
idempotent). -/
def zeroFar (dist : σ → ℕ) (cut : ℕ) (A : σ → σ → ℝ) (b : σ → ℝ) :
    (σ → σ → ℝ) × (σ → ℝ) :=
  (fun a q => if cut < dist a then 0 else A a q,
   fun a => if cut < dist a then 0 else b a)

/-- The multiplication loop of the initial-states-only mode: after `t`
rounds the state holds the working submatrix, the working right-hand side
and the sub-result; round `timeStep` multiplies and adds with the current
submatrix and right-hand side and then zeroes every state whose distance
exceeds `timeBound - timeStep`. -/
def boundedZeroRun (A : σ → σ → ℝ) (b : σ → ℝ) (dist : σ → ℕ) (timeBound : ℕ) :
    ℕ → (σ → σ → ℝ) × (σ → ℝ) × (σ → ℝ)
  | 0 => (A, b, b)
  | t + 1 =>
    ((zeroFar dist (timeBound - t) (boundedZeroRun A b dist timeBound t).1
        (boundedZeroRun A b dist timeBound t).2.1).1,
     (zeroFar dist (timeBound - t) (boundedZeroRun A b dist timeBound t).1
        (boundedZeroRun A b dist timeBound t).2.1).2,
     mulAdd (boundedZeroRun A b dist timeBound t).1
       (boundedZeroRun A b dist timeBound t).2.1
       (boundedZeroRun A b dist timeBound t).2.2)

/-- `computeBoundedUntilProbabilities` in initial-states-only mode: restrict
the maybe states to the reachable ones, run the multiplication loop with the
distance-based zeroing, and assemble the result as in the all-states mode. -/
noncomputable def computeBoundedUntilProbabilitiesInit (p : α → α → ℝ) (phi psi initial : Finset α)
    (k : ℕ) : α → ℝ :=
  fun s =>
    if s ∈ psi then 1
    else if hs : s ∈ boundedMaybeStatesInit p phi psi initial k then
      (boundedZeroRun (boundedSubmatrixInit p phi psi initial k)
        (boundedOneStepInit p phi psi initial k)
        (boundedDistances p phi psi initial k) (k - 1) (k - 1)).2.2 ⟨s, hs⟩
    else 0

end BoundedUntilDriver

/-- The initial states of the concrete three-state chain. -/
def initialU : Finset (Fin 3) := {0}

/-! ### 1.10 `computeReachabilityRewards`

The reward driver partitions the states into the target states, the
infinity states (detected by `perform_prob_1` on all states as `phi` and the
target as `psi`, complemented) and the maybe states, runs
`computeReachabilityValues` on the maybe submatrix (abstracted here by the
`subresult` argument, as the elimination order is by the priority queue) and
assembles the result vector over ℝ extended with `+∞`. -/

section RewardDriver

variable {α : Type} [Fintype α] [DecidableEq α]

/-- `infinityStates = ~performProb1(backward, trueStates, targetStates)`. -/
noncomputable def rewardInfinityStates (p : α → α → ℝ) (target : Finset α) : Finset α :=
  Finset.univ \ performProb1 p Finset.univ target

/-- `maybeStates = ~targetStates & ~infinityStates`. -/
noncomputable def rewardMaybeStates (p : α → α → ℝ) (target : Finset α) : Finset α :=
  (Finset.univ \ target) ∩ (Finset.univ \ rewardInfinityStates p target)

/-- `computeReachabilityRewards` (result assembly): the result vector is
zero-initialized, the maybe states receive the sub-result of
`computeReachabilityValues`, the infinity states `+∞` and the target states
zero (written in this order; the three sets are pairwise disjoint). -/
noncomputable def computeReachabilityRewards (p : α → α → ℝ) (target : Finset α)
    (subresult : {s // s ∈ rewardMaybeStates p target} → ℝ) : α → WithTop ℝ :=
  fun s =>
    if s ∈ target then (0 : WithTop ℝ)
    else if s ∈ rewardInfinityStates p target then ⊤
    else if h : s ∈ rewardMaybeStates p target then ((subresult ⟨s, h⟩ : ℝ) : WithTop ℝ)
    else 0

end RewardDriver

/-! ### 1.11 `computeConditionalProbabilities` (front)

The conditional-probability driver first restricts the condition's target
states to the "true" psi states (those reachable from the single initial
state without passing through another psi state first), computes the
probability-0/1 partition for the condition, throws `InvalidProperty` if the
initial state cannot reach the condition with positive probability, falls
back to ordinary unconditional model checking (`true U objective`) if the
initial state satisfies the condition with probability one, and otherwise
runs the conditional elimination (whose eliminator sources are not under
`src/`; it is abstracted by the `rest` argument). -/

/-- The typed faults thrown by the checked drivers. -/
inductive StormError where
  | invalidProperty

section ConditionalDriver

variable {α : Type} [Fintype α] [DecidableEq α]

/-- The restricted condition targets:
`getReachableStates(forward, initial, trueStates, psiStates) & psiStates`. -/
noncomputable def conditionalPsiStates (p : α → α → ℝ) (initial psiStates : Finset α) :
    Finset α :=
  getReachableStates p initial Finset.univ psiStates ∩ psiStates

/-- The front of `computeConditionalProbabilities`: restrict the condition
targets, require the initial state to reach them with positive probability
(`InvalidProperty` otherwise), fall back to the unconditional
`computeUntilProbabilities (true U objective)` when the condition holds with
probability one from the initial state, and otherwise continue with the
conditional elimination `rest`. -/
noncomputable def computeConditionalProbabilities (p : α → α → ℝ)
    (phiStates psiStates initial : Finset α)
    (orderObj : List {s // s ∈ maybeStates p Finset.univ phiStates})
    (rest : α → ℝ) : Except StormError (α → ℝ) :=
  if initial ⊆ performProbGreater0 p Finset.univ
      (conditionalPsiStates p initial psiStates) then
    if initial ⊆ performProb1 p Finset.univ
        (conditionalPsiStates p initial psiStates) then
      Except.ok (computeUntilProbabilities p Finset.univ phiStates orderObj)
    else Except.ok rest
  else Except.error StormError.invalidProperty

end ConditionalDriver

/-! ### 1.12 `computeLongRunValues`

The long-run driver decomposes the chain into its BSCCs (the decomposition
and the long-run eliminator live outside `src/`; both are modelled from the
spec, §4.K and §4.H).  A BSCC is relevant if its first (minimal) state is a
maybe state; its non-representative states are eliminated with the long-run
eliminator, which maintains `averageTimeInStates` alongside `stateValues`;
then each relevant BSCC is collapsed to
`stateValues[representative] / averageTimeInStates[representative]`, the
representative rows are cleared, the transient values zeroed, and the
remaining states eliminated ordinarily. -/

section LongRunDriver

variable {σ : Type} [Fintype σ] [DecidableEq σ] [LinearOrder σ]
variable {V : Type} [Field V] [DecidableEq V]

/-- The SCC of a state: the states it reaches that reach it back (computed on
the full transition matrix). -/
def sccOf (p : σ → σ → V) (s : σ) : Finset σ :=
  (getReachableStates p {s} Finset.univ ∅).filter
    (fun t => s ∈ getReachableStates p {t} Finset.univ ∅)

/-- A state is in a bottom SCC iff everything it reaches reaches it back. -/
def isInBottomScc (p : σ → σ → V) (s : σ) : Prop :=
  getReachableStates p {s} Finset.univ ∅ ⊆ sccOf p s

instance (p : σ → σ → V) (s : σ) : Decidable (isInBottomScc p s) :=
  inferInstanceAs (Decidable (_ ⊆ _))

/-- The representative of a state's BSCC: `*bscc.cbegin()`, the minimal state
of the component (BSCCs are stored as sets ordered by state index). -/
def bsccRep (p : σ → σ → V) (s : σ) : σ :=
  ((sccOf p s).min).untop' s

/-- The BSCC of `s` is relevant: `maybeStates.get(*bscc.cbegin())`. -/
def relevantBsccState (p : σ → σ → V) (maybeStates : Finset σ) (s : σ) : Prop :=
  isInBottomScc p s ∧ bsccRep p s ∈ maybeStates

instance (p : σ → σ → V) (maybeStates : Finset σ) (s : σ) :
    Decidable (relevantBsccState p maybeStates s) :=
  inferInstanceAs (Decidable (_ ∧ _))

/-- `bsccRepresentativesAsBitVector`. -/
def isBsccRepresentative (p : σ → σ → V) (maybeStates : Finset σ) (s : σ) : Prop :=
  relevantBsccState p maybeStates s ∧ s = bsccRep p s

instance (p : σ → σ → V) (maybeStates : Finset σ) (s : σ) :
    Decidable (isBsccRepresentative p maybeStates s) :=
  inferInstanceAs (Decidable (_ ∧ _))

/-- `regularStatesInBsccs` (after `&= ~bsccRepresentativesAsBitVector`). -/
def isRegularBsccState (p : σ → σ → V) (maybeStates : Finset σ) (s : σ) : Prop :=
  relevantBsccState p maybeStates s ∧ s ≠ bsccRep p s

instance (p : σ → σ → V) (maybeStates : Finset σ) (s : σ) :
    Decidable (isRegularBsccState p maybeStates s) :=
  inferInstanceAs (Decidable (_ ∧ _))

/-- Modelled from the spec: `LongRunAverageEliminator::eliminateState` — the
ordinary elimination applied to the state values and, with the same
coefficients (the self-loop factor in particular), to the average sojourn
times. -/
def eliminateStateLRA (M : σ → σ → V) (vals time : σ → V) (s : σ)
    (removeForwardTransitions : Bool) : (σ → σ → V) × (σ → V) × (σ → V) :=
  ((eliminateState M vals s removeForwardTransitions).1,
   (eliminateState M vals s removeForwardTransitions).2,
   (eliminateState M time s removeForwardTransitions).2)

/-- The first elimination phase: eliminate the regular BSCC states in the
order popped from the priority queue, removing forward transitions. -/
def eliminateRegularBsccStates (order : List σ) (M : σ → σ → V) (vals time : σ → V) :
    (σ → σ → V) × (σ → V) × (σ → V) :=
  order.foldl (fun S s => eliminateStateLRA S.1 S.2.1 S.2.2 s true) (M, vals, time)

/-- `flexibleMatrix.createSubmatrix(maybeStates, maybeStates)`. -/
def longRunSubmatrix (p : σ → σ → V) (maybeStates : Finset σ) : σ → σ → V :=
  fun a b => if a ∈ maybeStates ∧ b ∈ maybeStates then p a b else 0

/-- Phase 1 of `computeLongRunValues`: the state of (matrix, values, times)
after eliminating the regular BSCC states on the maybe submatrix, starting
from average times one. -/
def longRunPhase1 (p : σ → σ → V) (maybeStates : Finset σ) (vals : σ → V)
    (orderBsccs : List σ) : (σ → σ → V) × (σ → V) × (σ → V) :=
  eliminateRegularBsccStates orderBsccs (longRunSubmatrix p maybeStates) vals
    (fun _ => 1)

/-- The per-BSCC collapse: every state of a relevant BSCC receives
`bsccValue = stateValues[representative] / averageTimeInStates[representative]`
(in initial-states-only mode only the representative keeps it and the other
BSCC states are zeroed); all other values are untouched. -/
def longRunBsccAssignment (p : σ → σ → V) (maybeStates : Finset σ)
    (computeForInitialStatesOnly : Bool) (vals time : σ → V) : σ → V :=
  fun s =>
    if relevantBsccState p maybeStates s then
      if computeForInitialStatesOnly then
        if s = bsccRep p s then vals (bsccRep p s) / time (bsccRep p s) else 0
      else vals (bsccRep p s) / time (bsccRep p s)
    else vals s

/-- Clearing the forward rows of the representatives. -/
def longRunPhase2Matrix (p : σ → σ → V) (maybeStates : Finset σ)
    (M1 : σ → σ → V) : σ → σ → V :=
  fun a b => if isBsccRepresentative p maybeStates a then 0 else M1 a b

/-- Zero the values of the remaining (non-regular) non-representative states
before the second elimination phase. -/
def longRunZeroTransient (p : σ → σ → V) (maybeStates : Finset σ)
    (vals : σ → V) : σ → V :=
  fun s =>
    if s ∈ maybeStates ∧ ¬isRegularBsccState p maybeStates s ∧
        ¬isBsccRepresentative p maybeStates s then 0
    else vals s

/-- `computeLongRunValues`: phase-1 elimination of the regular BSCC states,
per-BSCC collapse, clearing of the representative rows, zeroing of the
transient values and — if some BSCC is relevant — ordinary prioritized
elimination of the remaining states. -/
def computeLongRunValues (p : σ → σ → V) (initialStates maybeStates : Finset σ)
    (computeForInitialStatesOnly : Bool) (stateValues : σ → V)
    (orderBsccs orderRemaining : List σ) : σ → V :=
  if (Finset.univ.filter (fun s => isBsccRepresentative p maybeStates s)).Nonempty then
    (performPrioritizedStateElimination initialStates computeForInitialStatesOnly
      orderRemaining
      (longRunPhase2Matrix p maybeStates
        (longRunPhase1 p maybeStates stateValues orderBsccs).1)
      (longRunZeroTransient p maybeStates
        (longRunBsccAssignment p maybeStates computeForInitialStatesOnly
          (longRunPhase1 p maybeStates stateValues orderBsccs).2.1
          (longRunPhase1 p maybeStates stateValues orderBsccs).2.2))).2
  else
    longRunZeroTransient p maybeStates
      (longRunBsccAssignment p maybeStates computeForInitialStatesOnly
        (longRunPhase1 p maybeStates stateValues orderBsccs).2.1
        (longRunPhase1 p maybeStates stateValues orderBsccs).2.2)

/-- `computeLongRunAverageProbabilities` (initial-states-only, as enforced by
the driver): trivial results for empty or full `psi`, otherwise maybe states
are the states with positive probability of reaching `psi` restricted to the
states reachable from the initial states, the state values start as the
`psi` indicator, and `computeLongRunValues` does the rest. -/
def computeLongRunAverageProbabilities (p : σ → σ → V)
    (psiStates initialStates : Finset σ) (orderBsccs orderRemaining : List σ) :
    σ → V :=
  if psiStates = ∅ then fun _ => 0
  else if psiStates = Finset.univ then fun _ => 1
  else
    let maybe := performProbGreater0 p Finset.univ psiStates ∩
      getReachableStates p initialStates Finset.univ ∅
    if initialStates ∩ maybe = ∅ then fun _ => 0
    else
      computeLongRunValues p initialStates maybe true
        (fun s => if s ∈ psiStates then 1 else 0) orderBsccs orderRemaining

end LongRunDriver

/-! ### 1.13 `computeReachabilityValues`: State vs Hybrid

`computeReachabilityValues` dispatches on `EliminationMethod`: `State` runs
the ordinary prioritized elimination of the whole subsystem; `Hybrid` runs
`treatScc`, which recursively decomposes large SCCs (on the original forward
matrix), eliminates trivial SCCs and SCC interiors directly, and either
eliminates entry states inline or pushes them onto `entryStateQueue`;
`performHybridStateElimination` finally eliminates the queued entry states
only when the `EliminateEntryStatesLast` policy is set.  Priority queues are
abstracted by `chooseOrder` (the enumeration the queue yields for a state
set); the SCC decomposition (whose source is not under `src/`) is modelled
from the spec with blocks visited in ascending order of their minimal
state. -/

section HybridDriver

variable {σ : Type} [Fintype σ] [DecidableEq σ] [LinearOrder σ]
variable {V : Type} [Field V] [DecidableEq V]

/-- The SCC of `s` inside the subgraph induced by `A`. -/
def sccOfIn (p : σ → σ → V) (A : Finset σ) (s : σ) : Finset σ :=
  (getReachableStates p {s} A ∅).filter (fun t => s ∈ getReachableStates p {t} A ∅)

/-- `treatScc`.  State: the flexible matrix, the values and the
`entryStateQueue`; recursion is by fuel (the code recursion descends into
strictly smaller sub-SCCs).  A large SCC is decomposed (without its entry
states) on the original matrix `p`; trivial SCCs (singletons without a
self-loop) are eliminated first, the remaining blocks are treated
recursively, each with the entry states read off the current matrix and with
`eliminateEntryStates || !EliminateEntryStatesLast`; a small SCC has its
non-entry states eliminated directly.  Finally the entry states are either
eliminated (naive ascending order) or appended to the queue. -/
def treatScc (p : σ → σ → V) (chooseOrder : Finset σ → List σ)
    (initialStates : Finset σ) (maximalSccSize : ℕ)
    (computeForInitialStatesOnly eliminateEntryStatesLast : Bool) :
    ℕ → Finset σ → Finset σ → Bool → ((σ → σ → V) × (σ → V) × List σ) →
    ((σ → σ → V) × (σ → V) × List σ)
  | 0, _, _, _, S => S
  | fuel + 1, entryStates, scc, eliminateEntryStates, S =>
    let S1 :=
      if maximalSccSize < scc.card then
        let rest := scc \ entryStates
        let trivialStates := rest.filter (fun s => sccOfIn p rest s = {s} ∧ p s s = 0)
        let blocks := ((rest \ trivialStates).filter
          (fun s => (sccOfIn p rest s).min = (s : WithTop σ))).sort (· ≤ ·)
        blocks.foldl
          (fun T r =>
            let B := sccOfIn p rest r
            let entry := B.filter
              (fun t => ((Finset.univ \ B).filter (fun u => T.1 u t ≠ 0)).Nonempty)
            treatScc p chooseOrder initialStates maximalSccSize
              computeForInitialStatesOnly eliminateEntryStatesLast fuel entry B
              (eliminateEntryStates || !eliminateEntryStatesLast) T)
          ((performPrioritizedStateElimination initialStates
              computeForInitialStatesOnly (chooseOrder trivialStates) S.1 S.2.1).1,
           (performPrioritizedStateElimination initialStates
              computeForInitialStatesOnly (chooseOrder trivialStates) S.1 S.2.1).2,
           S.2.2)
      else
        ((performPrioritizedStateElimination initialStates computeForInitialStatesOnly
            (chooseOrder (scc \ entryStates)) S.1 S.2.1).1,
         (performPrioritizedStateElimination initialStates computeForInitialStatesOnly
            (chooseOrder (scc \ entryStates)) S.1 S.2.1).2,
         S.2.2)
    if eliminateEntryStates then
      ((performPrioritizedStateElimination initialStates computeForInitialStatesOnly
          (entryStates.sort (· ≤ ·)) S1.1 S1.2.1).1,
       (performPrioritizedStateElimination initialStates computeForInitialStatesOnly
          (entryStates.sort (· ≤ ·)) S1.1 S1.2.1).2,
       S1.2.2)
    else
      (S1.1, S1.2.1, S1.2.2 ++ entryStates.sort (· ≤ ·))

/-- `performHybridStateElimination`: run `treatScc` on the whole subsystem
with the initial states as top-level entry states and
`eliminateEntryStates = false`; afterwards eliminate the queued entry states
only if the `EliminateEntryStatesLast` policy is set. -/
def performHybridStateElimination (p : σ → σ → V) (chooseOrder : Finset σ → List σ)
    (initialStates subsystem : Finset σ) (maximalSccSize : ℕ)
    (computeForInitialStatesOnly eliminateEntryStatesLast : Bool)
    (M : σ → σ → V) (vals : σ → V) : (σ → σ → V) × (σ → V) :=
  let T := treatScc p chooseOrder initialStates maximalSccSize
    computeForInitialStatesOnly eliminateEntryStatesLast (Fintype.card σ + 1)
    initialStates subsystem false (M, vals, [])
  if eliminateEntryStatesLast then
    performPrioritizedStateElimination initialStates computeForInitialStatesOnly
      T.2.2 T.1 T.2.1
  else (T.1, T.2.1)

/-- The elimination method selected by the settings. -/
inductive EliminationMethod where
  | state
  | hybrid

/-- `computeReachabilityValues`: dispatch on the elimination method; the
`State` method eliminates the whole subsystem with one priority queue, the
`Hybrid` method uses the recursive SCC treatment. -/
def computeReachabilityValues (method : EliminationMethod) (p : σ → σ → V)
    (chooseOrder : Finset σ → List σ) (initialStates : Finset σ)
    (computeForInitialStatesOnly : Bool) (maximalSccSize : ℕ)
    (eliminateEntryStatesLast : Bool) (vals : σ → V) : (σ → σ → V) × (σ → V) :=
  match method with
  | .state =>
    performPrioritizedStateElimination initialStates computeForInitialStatesOnly
      (chooseOrder Finset.univ) p vals
  | .hybrid =>
    performHybridStateElimination p chooseOrder initialStates Finset.univ
      maximalSccSize computeForInitialStatesOnly eliminateEntryStatesLast p vals

end HybridDriver

/-- The one-maybe-state instance exhibiting the Hybrid bug: the until system
of a chain whose single maybe state `s0` has a 1/2 self-loop, moves to the
target with probability 1/4 and to a sink with probability 1/4, in
initial-states-only mode (`s0` initial).  The maybe submatrix is the 1×1
matrix (1/2) and the one-step vector is 1/4; the exact reach probability
from `s0` is 1/2. -/
def pH : Fin 1 → Fin 1 → ℚ := fun _ _ => 1/2

/-- The one-step-to-target values of the bug instance. -/
def valsH : Fin 1 → ℚ := fun _ => 1/4

/-- The queue enumeration of the bug instance: ascending state order. -/
def chooseOrderH : Finset (Fin 1) → List (Fin 1) := fun S => S.sort (· ≤ ·)

/-- The concrete seven-state chain of the spec's BSCC long-run instance:
state 0 jumps to cycle A (states 1, 2, 3) with probability 1/4 and to
cycle B (states 4, 5, 6) with probability 3/4; inside each cycle every state
moves to each of the three cycle states with probability 1/3. -/
def pL : Fin 7 → Fin 7 → ℚ := fun s q =>
  if s = 0 then (if q = 1 then 1/4 else if q = 4 then 3/4 else 0)
  else if s = 1 ∨ s = 2 ∨ s = 3 then (if q = 1 ∨ q = 2 ∨ q = 3 then 1/3 else 0)
  else if q = 4 ∨ q = 5 ∨ q = 6 then 1/3 else 0

/-- `psi` labels one state of cycle A. -/
def psiL : Finset (Fin 7) := {1}

/-- The single initial state of the concrete chain. -/
def initialL : Finset (Fin 7) := {0}

-- ===== THEOREMS =====

/-! ## Part 2: theorems -/

namespace GameMatrix

variable {n : ℕ}

theorem strongAttractorsGo_zero (g : GameMatrix n) (maxC allowedS : Finset (Fin n))
    (allowedT : Finset ℕ) (att work : Finset (Fin n)) (marks : Finset ℕ) :
    strongAttractorsGo g maxC allowedS allowedT 0 att work marks = (att, marks) := rfl

theorem justified_mono (g : GameMatrix n) (maxC allowedS : Finset (Fin n))
    (allowedT : Finset ℕ) {X Y : Finset (Fin n)} (hXY : X ⊆ Y) {p : Fin n}
    (h : justified g maxC allowedS allowedT X p) :
    justified g maxC allowedS allowedT Y p := by
  obtain ⟨hp, hcond⟩ := h
  refine ⟨hp, ?_⟩
  by_cases hm : p ∈ maxC
  · simp only [hm, if_true] at hcond ⊢
    obtain ⟨r, hr, hra, x, hx⟩ := hcond
    exact ⟨r, hr, hra, x, Finset.mem_inter.mpr
      ⟨(Finset.mem_inter.mp hx).1, hXY (Finset.mem_inter.mp hx).2⟩⟩
  · simp only [hm, if_false] at hcond ⊢
    refine ⟨hcond.1, fun r hr => ?_⟩
    obtain ⟨hra, x, hx⟩ := hcond.2 r hr
    exact ⟨hra, x, Finset.mem_inter.mpr
      ⟨(Finset.mem_inter.mp hx).1, hXY (Finset.mem_inter.mp hx).2⟩⟩

theorem justified_empty (g : GameMatrix n) (maxC allowedS : Finset (Fin n))
    (allowedT : Finset ℕ) (p : Fin n) :
    ¬ justified g maxC allowedS allowedT ∅ p := by
  rintro ⟨hp, hcond⟩
  by_cases hm : p ∈ maxC
  · simp only [hm, if_true] at hcond
    obtain ⟨r, _, _, x, hx⟩ := hcond
    simp at hx
  · simp only [hm, if_false] at hcond
    obtain ⟨⟨r, hr⟩, hall⟩ := hcond
    obtain ⟨_, x, hx⟩ := hall r hr
    simp at hx

/-- Master invariant lemma for the `computeStrongAttractors` loop.  Given a
"closed" set `C` (containing `target` and closed under admission), and the
loop invariants relating `att` (the attractor set so far), `work` (the newly
admitted layer) and `marks` (the used-transition set), the loop's result
satisfies all the structural facts about the returned attractor pair. -/
theorem strongAttractorsGo_master (g : GameMatrix n) (maxC allowedS : Finset (Fin n))
    (allowedT : Finset ℕ) (target C : Finset (Fin n))
    (hCclosed : ∀ p, justified g maxC allowedS allowedT C p → p ∈ C) :
    ∀ fuel att work marks,
      (Finset.univ \ att).card + 2 ≤ fuel →
      work ⊆ att →
      target ⊆ att →
      att ⊆ C →
      (∀ r ∈ marks, r ∈ allowedT ∧ (g.rowSupport r ∩ att).Nonempty) →
      (∀ p ∈ att, p ∈ target ∨ justified g maxC allowedS allowedT att p) →
      (∀ p, p ∉ att → ∀ r ∈ g.rowGroup p, r ∈ allowedT →
        (g.rowSupport r ∩ (att \ work)).Nonempty → r ∈ marks) →
      (∀ p, p ∉ att → ¬ justified g maxC allowedS allowedT (att \ work) p) →
      (target ⊆ (strongAttractorsGo g maxC allowedS allowedT fuel att work marks).1 ∧
       (strongAttractorsGo g maxC allowedS allowedT fuel att work marks).1 ⊆ C ∧
       (∀ p ∈ (strongAttractorsGo g maxC allowedS allowedT fuel att work marks).1,
         p ∈ target ∨ justified g maxC allowedS allowedT
           (strongAttractorsGo g maxC allowedS allowedT fuel att work marks).1 p) ∧
       (∀ r ∈ (strongAttractorsGo g maxC allowedS allowedT fuel att work marks).2,
         r ∈ allowedT ∧ (g.rowSupport r ∩
           (strongAttractorsGo g maxC allowedS allowedT fuel att work marks).1).Nonempty) ∧
       (∀ p, p ∉ (strongAttractorsGo g maxC allowedS allowedT fuel att work marks).1 →
         ∀ r ∈ g.rowGroup p, r ∈ allowedT →
         (g.rowSupport r ∩
           (strongAttractorsGo g maxC allowedS allowedT fuel att work marks).1).Nonempty →
         r ∈ (strongAttractorsGo g maxC allowedS allowedT fuel att work marks).2) ∧
       (∀ p, p ∉ (strongAttractorsGo g maxC allowedS allowedT fuel att work marks).1 →
         ¬ justified g maxC allowedS allowedT
           (strongAttractorsGo g maxC allowedS allowedT fuel att work marks).1 p)) := by
  intro fuel
  induction fuel with
  | zero => intro att work marks hfuel; omega
  | succ f ih =>
    intro att work marks hfuel hwa hta haC hM hS hH hK
    by_cases hw : work = ∅
    · -- loop exit: `work` is empty, result is `(att, marks)`
      have hres : strongAttractorsGo g maxC allowedS allowedT (f + 1) att work marks
          = (att, marks) := by
        simp only [strongAttractorsGo, hw, if_true]
      rw [hres]
      have hattw : att \ work = att := by rw [hw, Finset.sdiff_empty]
      rw [hattw] at hH hK
      exact ⟨hta, haC, hS, hM, fun p hp => hH p hp, hK⟩
    · -- one loop iteration
      set preds := (work.biUnion (fun w => g.predecessors w)).filter (fun p => p ∉ att)
        with hpreds_def
      set marks' := marks ∪
        (preds.biUnion (fun p => g.rowGroup p)).filter
          (fun r => r ∈ allowedT ∧ (g.rowSupport r ∩ att).Nonempty) with hmarksP_def
      set newStates := (preds ∩ allowedS).filter
          (fun p => isGoodState g maxC marks' p ∧ p ∉ att) with hnew_def
      have hres : strongAttractorsGo g maxC allowedS allowedT (f + 1) att work marks
          = strongAttractorsGo g maxC allowedS allowedT f (att ∪ newStates) newStates marks' := by
        simp only [strongAttractorsGo, hw, if_false]
      -- basic facts about predecessors
      have hpreds_mem : ∀ p ∈ preds, p ∉ att ∧ ∃ w ∈ work, ∃ r ∈ g.rowGroup p,
          w ∈ g.rowSupport r := by
        intro p hp
        rw [hpreds_def, Finset.mem_filter, Finset.mem_biUnion] at hp
        obtain ⟨⟨w, hww, hwp⟩, hpa⟩ := hp
        rw [predecessors, Finset.mem_filter] at hwp
        exact ⟨hpa, w, hww, hwp.2⟩
      -- every allowed transition of a predecessor into `att` is marked
      have hmark_new : ∀ p ∈ preds, ∀ r ∈ g.rowGroup p, r ∈ allowedT →
          (g.rowSupport r ∩ att).Nonempty → r ∈ marks' := by
        intro p hp r hr hra hrs
        rw [hmarksP_def, Finset.mem_union]
        right
        rw [Finset.mem_filter, Finset.mem_biUnion]
        exact ⟨⟨p, hp, hr⟩, hra, hrs⟩
      -- marks' soundness w.r.t. att
      have hM' : ∀ r ∈ marks', r ∈ allowedT ∧ (g.rowSupport r ∩ att).Nonempty := by
        intro r hr
        rw [hmarksP_def, Finset.mem_union] at hr
        rcases hr with hr | hr
        · exact hM r hr
        · rw [Finset.mem_filter] at hr
          exact hr.2
      -- newly admitted states are justified w.r.t. att
      have hnew_just : ∀ p ∈ newStates, justified g maxC allowedS allowedT att p := by
        intro p hp
        rw [hnew_def, Finset.mem_filter, Finset.mem_inter] at hp
        obtain ⟨⟨hpp, hpal⟩, hgood, hpa⟩ := hp
        refine ⟨hpal, ?_⟩
        by_cases hm : p ∈ maxC
        · simp only [hm, if_true]
          rw [isGoodState, if_pos hm] at hgood
          obtain ⟨r, hr, hrm⟩ := hgood
          obtain ⟨hra, hrs⟩ := hM' r hrm
          exact ⟨r, hr, hra, hrs⟩
        · simp only [hm, if_false]
          rw [isGoodState, if_neg hm] at hgood
          obtain ⟨_, w, hww, r0, hr0, _⟩ := hpreds_mem p hpp
          exact ⟨⟨r0, hr0⟩, fun r hr => hM' r (hgood r hr)⟩
      have hnew_not_att : ∀ p ∈ newStates, p ∉ att := by
        intro p hp
        rw [hnew_def, Finset.mem_filter] at hp
        exact hp.2.2
      -- the key completeness step: any state justified w.r.t. att that was not
      -- admitted is already in att
      have hkey : ∀ p, p ∉ att → p ∉ newStates →
          ¬ justified g maxC allowedS allowedT att p := by
        intro p hpa hpn hj
        obtain ⟨hpal, hcond⟩ := hj
        by_cases hm : p ∈ maxC
        · simp only [hm, if_true] at hcond
          obtain ⟨r, hr, hra, x, hx⟩ := hcond
          rw [Finset.mem_inter] at hx
          by_cases hxw : x ∈ work
          · -- p is examined this iteration and admitted: contradiction
            have hpp : p ∈ preds := by
              rw [hpreds_def, Finset.mem_filter, Finset.mem_biUnion]
              refine ⟨⟨x, hxw, ?_⟩, hpa⟩
              rw [predecessors, Finset.mem_filter]
              exact ⟨Finset.mem_univ p, r, hr, hx.1⟩
            have hrm : r ∈ marks' := hmark_new p hpp r hr hra ⟨x, Finset.mem_inter.mpr hx⟩
            apply hpn
            rw [hnew_def, Finset.mem_filter, Finset.mem_inter]
            refine ⟨⟨hpp, hpal⟩, ?_, hpa⟩
            rw [isGoodState, if_pos hm]
            exact ⟨r, hr, hrm⟩
          · -- the witnessing edge already pointed into the processed part
            exact hK p hpa ⟨hpal, by
              simp only [hm, if_true]
              exact ⟨r, hr, hra, x, Finset.mem_inter.mpr
                ⟨hx.1, Finset.mem_sdiff.mpr ⟨hx.2, hxw⟩⟩⟩⟩
        · simp only [hm, if_false] at hcond
          obtain ⟨hne, hall⟩ := hcond
          by_cases hold : ∀ r ∈ g.rowGroup p, (g.rowSupport r ∩ (att \ work)).Nonempty
          · exact hK p hpa ⟨hpal, by
              simp only [hm, if_false]
              exact ⟨hne, fun r hr => ⟨(hall r hr).1, hold r hr⟩⟩⟩
          · push_neg at hold
            obtain ⟨r0, hr0, hr0e⟩ := hold
            obtain ⟨hr0a, x, hx⟩ := hall r0 hr0
            rw [Finset.mem_inter] at hx
            have hxw : x ∈ work := by
              by_contra hxw
              exact hr0e ⟨x, Finset.mem_inter.mpr
                ⟨hx.1, Finset.mem_sdiff.mpr ⟨hx.2, hxw⟩⟩⟩
            have hpp : p ∈ preds := by
              rw [hpreds_def, Finset.mem_filter, Finset.mem_biUnion]
              refine ⟨⟨x, hxw, ?_⟩, hpa⟩
              rw [predecessors, Finset.mem_filter]
              exact ⟨Finset.mem_univ p, r0, hr0, hx.1⟩
            apply hpn
            rw [hnew_def, Finset.mem_filter, Finset.mem_inter]
            refine ⟨⟨hpp, hpal⟩, ?_, hpa⟩
            rw [isGoodState, if_neg hm]
            exact fun r hr => hmark_new p hpp r hr (hall r hr).1 (hall r hr).2
      -- the H-style marking completeness step for the next loop state
      have hH' : ∀ p, p ∉ att → ∀ r ∈ g.rowGroup p, r ∈ allowedT →
          (g.rowSupport r ∩ att).Nonempty → r ∈ marks' := by
        intro p hpa r hr hra hrs
        obtain ⟨x, hx⟩ := hrs
        rw [Finset.mem_inter] at hx
        by_cases hxw : x ∈ work
        · have hpp : p ∈ preds := by
            rw [hpreds_def, Finset.mem_filter, Finset.mem_biUnion]
            refine ⟨⟨x, hxw, ?_⟩, hpa⟩
            rw [predecessors, Finset.mem_filter]
            exact ⟨Finset.mem_univ p, r, hr, hx.1⟩
          exact hmark_new p hpp r hr hra ⟨x, Finset.mem_inter.mpr hx⟩
        · have := hH p hpa r hr hra ⟨x, Finset.mem_inter.mpr
            ⟨hx.1, Finset.mem_sdiff.mpr ⟨hx.2, hxw⟩⟩⟩
          rw [hmarksP_def, Finset.mem_union]
          exact Or.inl this
      by_cases hnne : newStates = ∅
      · -- nothing admitted: the loop exits in the next iteration with (att, marks')
        have hres2 : strongAttractorsGo g maxC allowedS allowedT (f + 1) att work marks
            = (att, marks') := by
          rw [hres, hnne, Finset.union_empty]
          cases f with
          | zero => rfl
          | succ f' => simp only [strongAttractorsGo, if_true]
        rw [hres2]
        refine ⟨hta, haC, hS, hM', fun p hp => hH' p hp, ?_⟩
        intro p hpa
        exact hkey p hpa (by rw [hnne]; exact Finset.not_mem_empty p)
      · -- at least one new state: recurse with the updated loop state
        rw [hres]
        have hdisj : ∀ p ∈ newStates, p ∉ att := hnew_not_att
        have hattw' : (att ∪ newStates) \ newStates = att := by
          rw [Finset.union_sdiff_right]
          apply Finset.sdiff_eq_self_of_disjoint
          exact Finset.disjoint_left.mpr (fun p hp hp2 => hdisj p hp2 hp)
        have hsub : att ⊆ att ∪ newStates := Finset.subset_union_left
        apply ih
        · -- fuel bound: the attractor set grew strictly
          obtain ⟨x, hx⟩ := Finset.nonempty_iff_ne_empty.mpr hnne
          have hcard : (Finset.univ \ (att ∪ newStates)).card < (Finset.univ \ att).card := by
            apply Finset.card_lt_card
            constructor
            · intro y hy
              rw [Finset.mem_sdiff] at hy ⊢
              exact ⟨hy.1, fun hc => hy.2 (Finset.mem_union_left _ hc)⟩
            · intro hcon
              have hx1 : x ∈ Finset.univ \ att :=
                Finset.mem_sdiff.mpr ⟨Finset.mem_univ x, hdisj x hx⟩
              have := hcon hx1
              rw [Finset.mem_sdiff] at this
              exact this.2 (Finset.mem_union_right _ hx)
          omega
        · exact Finset.subset_union_right
        · exact hta.trans hsub
        · -- att ∪ newStates ⊆ C
          intro p hp
          rw [Finset.mem_union] at hp
          rcases hp with hp | hp
          · exact haC hp
          · exact hCclosed p (justified_mono g maxC allowedS allowedT haC (hnew_just p hp))
        · exact fun r hr => ⟨(hM' r hr).1, Finset.Nonempty.mono
            (Finset.inter_subset_inter (le_refl _) hsub) (hM' r hr).2⟩
        · intro p hp
          rw [Finset.mem_union] at hp
          rcases hp with hp | hp
          · rcases hS p hp with h | h
            · exact Or.inl h
            · exact Or.inr (justified_mono g maxC allowedS allowedT hsub h)
          · exact Or.inr (justified_mono g maxC allowedS allowedT hsub (hnew_just p hp))
        · intro p hpa r hr hra hrs
          rw [hattw'] at hrs
          exact hH' p (fun hc => hpa (hsub hc)) r hr hra hrs
        · intro p hpa
          rw [hattw']
          rw [Finset.mem_union, not_or] at hpa
          exact hkey p hpa.1 hpa.2

/-- The initial loop state of `computeStrongAttractors` satisfies the master
invariants, so all the structural facts transfer to the returned pair. -/
theorem computeStrongAttractors_post (g : GameMatrix n)
    (maxC target allowedS : Finset (Fin n)) (allowedT : Finset ℕ) (C : Finset (Fin n))
    (hCclosed : ∀ p, justified g maxC allowedS allowedT C p → p ∈ C)
    (htC : target ⊆ C) :
    (target ⊆ (computeStrongAttractors g maxC target allowedS allowedT).1 ∧
     (computeStrongAttractors g maxC target allowedS allowedT).1 ⊆ C ∧
     (∀ p ∈ (computeStrongAttractors g maxC target allowedS allowedT).1,
       p ∈ target ∨ justified g maxC allowedS allowedT
         (computeStrongAttractors g maxC target allowedS allowedT).1 p) ∧
     (∀ r ∈ (computeStrongAttractors g maxC target allowedS allowedT).2,
       r ∈ allowedT ∧ (g.rowSupport r ∩
         (computeStrongAttractors g maxC target allowedS allowedT).1).Nonempty) ∧
     (∀ p, p ∉ (computeStrongAttractors g maxC target allowedS allowedT).1 →
       ∀ r ∈ g.rowGroup p, r ∈ allowedT →
       (g.rowSupport r ∩ (computeStrongAttractors g maxC target allowedS allowedT).1).Nonempty →
       r ∈ (computeStrongAttractors g maxC target allowedS allowedT).2) ∧
     (∀ p, p ∉ (computeStrongAttractors g maxC target allowedS allowedT).1 →
       ¬ justified g maxC allowedS allowedT
         (computeStrongAttractors g maxC target allowedS allowedT).1 p)) := by
  apply strongAttractorsGo_master g maxC allowedS allowedT target C hCclosed
  · have h1 : (Finset.univ \ target).card ≤ n := by
      calc (Finset.univ \ target).card ≤ (Finset.univ : Finset (Fin n)).card :=
            Finset.card_le_card Finset.sdiff_subset
        _ = n := by rw [Finset.card_univ, Fintype.card_fin]
    omega
  · exact le_refl target
  · exact le_refl target
  · exact htC
  · intro r hr; simp at hr
  · exact fun p hp => Or.inl hp
  · intro p _ r _ _ hrs
    rw [Finset.sdiff_self] at hrs
    simp at hrs
  · intro p _
    rw [Finset.sdiff_self]
    exact justified_empty g maxC allowedS allowedT p

/-- Minimality: the returned attractor set is contained in every set that
contains the target and is closed under the admission condition. -/
theorem computeStrongAttractors_minimal (g : GameMatrix n)
    (maxC target allowedS : Finset (Fin n)) (allowedT : Finset ℕ) (C : Finset (Fin n))
    (hCclosed : ∀ p, justified g maxC allowedS allowedT C p → p ∈ C)
    (htC : target ⊆ C) :
    (computeStrongAttractors g maxC target allowedS allowedT).1 ⊆ C :=
  (computeStrongAttractors_post g maxC target allowedS allowedT C hCclosed htC).2.1

/-- C4.  `compute_strong_attractors` is monotone in its target argument: for
every game matrix, coalition, allowed state set and allowed transition set,
and every pair of target sets `T1 ⊆ T2`, every state in the attractor-state
output for `T1` is also in the attractor-state output for `T2`. -/
theorem computeStrongAttractors_monotone_in_target (g : GameMatrix n)
    (maxC allowedS : Finset (Fin n)) (allowedT : Finset ℕ)
    (T1 T2 : Finset (Fin n)) (h12 : T1 ⊆ T2) :
    (computeStrongAttractors g maxC T1 allowedS allowedT).1 ⊆
      (computeStrongAttractors g maxC T2 allowedS allowedT).1 := by
  have hpost := computeStrongAttractors_post g maxC T2 allowedS allowedT Finset.univ
    (fun p _ => Finset.mem_univ p) (Finset.subset_univ T2)
  apply computeStrongAttractors_minimal g maxC T1 allowedS allowedT
  · intro p hj
    by_contra hp
    exact hpost.2.2.2.2.2 p hp hj
  · exact h12.trans hpost.1

/-- Witness for C4 at a concrete input: taking the two-state game `gameA`
with targets `T1 = {1} ⊆ T2 = {0, 1}`, the monotonicity theorem applies. -/
theorem computeStrongAttractors_monotone_in_target_witness :
    (({1} : Finset (Fin 2)) ⊆ ({0, 1} : Finset (Fin 2))) ∧
      (computeStrongAttractors gameA ∅ {1} Finset.univ {0, 1, 2}).1 ⊆
        (computeStrongAttractors gameA ∅ {0, 1} Finset.univ {0, 1, 2}).1 :=
  ⟨by decide, computeStrongAttractors_monotone_in_target gameA ∅ Finset.univ {0, 1, 2}
    {1} {0, 1} (by decide)⟩

/-- C2 (amended).  In `compute_strong_attractors`, starting from
`states = target` and iterating until no new states are added: a predecessor
in the allowed state set owned by the maximizer coalition is admitted if any
of its allowed transitions enters the attractor set; a minimizer-owned
admitted predecessor has all of its transitions allowed and entering the
attractor set; and the returned transition set records the allowed
transitions of examined predecessor states that enter the attractor set —
every recorded transition is allowed and enters the returned state set, and
for states never admitted a transition is recorded exactly when it is allowed
and enters the returned state set (so recording is not limited to transitions
that witnessed an admission). -/
theorem computeStrongAttractors_amended (g : GameMatrix n)
    (maxC target allowedS : Finset (Fin n)) (allowedT : Finset ℕ) :
    target ⊆ (computeStrongAttractors g maxC target allowedS allowedT).1 ∧
    (∀ p, p ∈ allowedS → p ∈ maxC →
      (∃ r ∈ g.rowGroup p, r ∈ allowedT ∧
        (g.rowSupport r ∩ (computeStrongAttractors g maxC target allowedS allowedT).1).Nonempty) →
      p ∈ (computeStrongAttractors g maxC target allowedS allowedT).1) ∧
    (∀ p, p ∈ (computeStrongAttractors g maxC target allowedS allowedT).1 →
      p ∉ target → p ∉ maxC →
      ∀ r ∈ g.rowGroup p, r ∈ allowedT ∧
        (g.rowSupport r ∩ (computeStrongAttractors g maxC target allowedS allowedT).1).Nonempty) ∧
    (∀ r ∈ (computeStrongAttractors g maxC target allowedS allowedT).2,
      r ∈ allowedT ∧
        (g.rowSupport r ∩ (computeStrongAttractors g maxC target allowedS allowedT).1).Nonempty) ∧
    (∀ p, p ∉ (computeStrongAttractors g maxC target allowedS allowedT).1 →
      ∀ r ∈ g.rowGroup p,
        (r ∈ (computeStrongAttractors g maxC target allowedS allowedT).2 ↔
          r ∈ allowedT ∧
            (g.rowSupport r ∩
              (computeStrongAttractors g maxC target allowedS allowedT).1).Nonempty)) := by
  have hpost := computeStrongAttractors_post g maxC target allowedS allowedT Finset.univ
    (fun p _ => Finset.mem_univ p) (Finset.subset_univ target)
  refine ⟨hpost.1, ?_, ?_, hpost.2.2.2.1, ?_⟩
  · intro p hpal hpm hex
    by_contra hp
    exact hpost.2.2.2.2.2 p hp ⟨hpal, by simp only [hpm, if_true]; exact hex⟩
  · intro p hp hpt hpm r hr
    rcases hpost.2.2.1 p hp with h | h
    · exact absurd h hpt
    · obtain ⟨_, hcond⟩ := h
      simp only [hpm, if_false] at hcond
      exact hcond.2 r hr
  · intro p hp r hr
    constructor
    · intro hrm
      exact hpost.2.2.2.1 r hrm
    · intro ⟨hra, hrs⟩
      exact hpost.2.2.2.2.1 p hp r hr hra hrs

set_option maxHeartbeats 2000000 in
/-- Witness for the amended C2 at a concrete input: in `gameA` with state 0
owned by the maximizer coalition, state 0 has an allowed transition into the
attractor set, so the maximizer admission clause puts it in the output. -/
theorem computeStrongAttractors_amended_witness :
    (0 : Fin 2) ∈ (Finset.univ : Finset (Fin 2)) ∧
      (0 : Fin 2) ∈ (computeStrongAttractors gameA {0} {1} Finset.univ {0, 1, 2}).1 :=
  ⟨by decide,
    (computeStrongAttractors_amended gameA {0} {1} Finset.univ {0, 1, 2}).2.1 0
      (by decide) (by decide) (by decide)⟩

set_option maxHeartbeats 2000000 in
/-- Counterexample to C2 as stated.  In `gameA` with every state owned by the
minimizer, target `{1}`, all states and transitions allowed, the computation
admits no state at all (the returned state set is exactly the target), yet
the returned transition set contains row 0: the transition set does not
record "exactly the transitions that witnessed an admission" — it also
records allowed transitions of examined-but-rejected predecessors. -/
theorem computeStrongAttractors_transition_without_admission :
    (computeStrongAttractors gameA ∅ {1} Finset.univ {0, 1, 2}).1 = {1} ∧
      (0 : ℕ) ∈ (computeStrongAttractors gameA ∅ {1} Finset.univ {0, 1, 2}).2 := by
  decide

end GameMatrix

namespace DynamicPenaltyStatePriorityQueue

variable {M W : Type}

/-- C10.  `DynamicPenaltyStatePriorityQueue::update`: for a state with no
entry in the state-to-priority mapping the queue and the mapping are left
completely unchanged; for a contained state whose recomputed penalty equals
its stored penalty the queue is likewise unchanged; otherwise exactly that
state's entry is re-keyed to the newly computed penalty (the old pair erased,
the new pair inserted, the mapping updated) and all entries of other states
stay unchanged. -/
theorem update_spec (q : DynamicPenaltyStatePriorityQueue M W) (state : ℕ)
    (tm bt : M) (osp : W) :
    (q.stateToPriorityMapping state = none → q.update state tm bt osp = q) ∧
    (∀ last, q.stateToPriorityMapping state = some last →
      q.penaltyFunction state tm bt osp = last → q.update state tm bt osp = q) ∧
    (∀ last, q.stateToPriorityMapping state = some last →
      q.penaltyFunction state tm bt osp ≠ last →
      ((q.update state tm bt osp).priorityQueue
          = insert (state, q.penaltyFunction state tm bt osp)
              (q.priorityQueue.erase (state, last)) ∧
       (q.update state tm bt osp).stateToPriorityMapping state
          = some (q.penaltyFunction state tm bt osp) ∧
       (∀ s, s ≠ state → (q.update state tm bt osp).stateToPriorityMapping s
          = q.stateToPriorityMapping s) ∧
       (∀ pr : ℕ × ℕ, pr.1 ≠ state →
         (pr ∈ (q.update state tm bt osp).priorityQueue ↔ pr ∈ q.priorityQueue)))) := by
  refine ⟨?_, ?_, ?_⟩
  · intro hnone
    unfold update
    rw [hnone]
  · intro last hsome heq
    unfold update
    rw [hsome]
    simp only [heq, if_true]
  · intro last hsome hne
    have hup : q.update state tm bt osp =
        { q with
          priorityQueue := insert (state, q.penaltyFunction state tm bt osp)
            (q.priorityQueue.erase (state, last))
          stateToPriorityMapping := fun s =>
            if s = state then some (q.penaltyFunction state tm bt osp)
            else q.stateToPriorityMapping s } := by
      unfold update
      rw [hsome]
      simp only [hne, if_false]
    refine ⟨by rw [hup], by rw [hup]; simp, fun s hs => by rw [hup]; simp only [if_neg hs], ?_⟩
    intro pr hpr
    rw [hup]
    simp only [Finset.mem_insert, Finset.mem_erase]
    constructor
    · rintro (h | h)
      · exact absurd (congrArg Prod.fst h) hpr
      · exact h.2
    · intro h
      refine Or.inr ⟨?_, h⟩
      intro hc
      exact hpr (congrArg Prod.fst hc)

/-- Witness for C10 at a concrete input: the queue `{(5, 3)}` with mapping
`5 ↦ 3` and penalty function returning the state itself.  Updating state 7
(absent) leaves the queue unchanged; updating state 5 re-keys its entry from
penalty 3 to penalty 5. -/
theorem update_spec_witness :
    (qA.stateToPriorityMapping 7 = none ∧ qA.update 7 () () () = qA) ∧
      (qA.stateToPriorityMapping 5 = some 3 ∧ qA.penaltyFunction 5 () () () ≠ 3 ∧
        (qA.update 5 () () ()).priorityQueue
          = insert (5, qA.penaltyFunction 5 () () ()) (qA.priorityQueue.erase (5, 3))) :=
  ⟨⟨rfl, (update_spec qA 7 () () ()).1 rfl⟩,
    ⟨rfl, by decide, ((update_spec qA 5 () () ()).2.2 3 rfl (by decide)).1⟩⟩

end DynamicPenaltyStatePriorityQueue

section DFTBounds

variable {V : Type}

theorem foldl_setFirst_not_mem (rateOf : SkippedStateInfo V → V)
    (skipped : List (ℕ × SkippedStateInfo V)) (m : ℕ → List (ℕ × V)) (s : ℕ)
    (hs : ∀ p ∈ skipped, s ≠ p.1) :
    skipped.foldl
      (fun m p => fun s => if s = p.1 then setFirstEntryValue (m s) (rateOf p.2) else m s)
      m s = m s := by
  induction skipped generalizing m with
  | nil => rfl
  | cons p rest ih =>
    simp only [List.foldl_cons]
    rw [ih _ (fun p hp => hs p (List.mem_cons_of_mem _ hp))]
    simp only [hs p (List.mem_cons_self p rest), if_false]

theorem foldl_setFirst_mem (rateOf : SkippedStateInfo V → V)
    (skipped : List (ℕ × SkippedStateInfo V)) (m : ℕ → List (ℕ × V))
    (hnodup : (skipped.map Prod.fst).Nodup)
    (p : ℕ × SkippedStateInfo V) (hp : p ∈ skipped) :
    skipped.foldl
      (fun m q => fun s => if s = q.1 then setFirstEntryValue (m s) (rateOf q.2) else m s)
      m p.1 = setFirstEntryValue (m p.1) (rateOf p.2) := by
  induction skipped generalizing m with
  | nil => cases hp
  | cons q rest ih =>
    simp only [List.map_cons, List.nodup_cons] at hnodup
    rcases List.mem_cons.mp hp with heq | hmem
    · subst heq
      simp only [List.foldl_cons]
      rw [foldl_setFirst_not_mem rateOf rest _ p.1 ?_]
      · simp
      · intro q hq hc
        exact hnodup.1 (hc ▸ List.mem_map_of_mem Prod.fst hq)
    · have hne : p.1 ≠ q.1 := by
        intro hc
        exact hnodup.1 (hc ▸ List.mem_map_of_mem Prod.fst hmem)
      simp only [List.foldl_cons]
      rw [ih _ hnodup.2 hmem]
      simp only [hne, if_false]

/-- C9.  For every skipped state of the Explorer (each appearing once in the
skipped-state map), whose row holds the single provisional transition to the
absorbing failed state, `change_matrix_lower_bound` replaces the provisional
value by the sum of the rates of all potential follow-up failures, and
`change_matrix_upper_bound` replaces it by 1 divided by the sum of the
reciprocals of those rates; rows of non-skipped states are unchanged by both
operations. -/
theorem changeMatrixBounds_spec [DivisionRing V] (skipped : List (ℕ × SkippedStateInfo V))
    (m : ℕ → List (ℕ × V)) (hnodup : (skipped.map Prod.fst).Nodup) (failedStateId : ℕ) :
    (∀ p ∈ skipped, ∀ v0 : V, m p.1 = [(failedStateId, v0)] →
      changeMatrixLowerBound skipped m p.1 = [(failedStateId, lowerBoundRate p.2)] ∧
      changeMatrixUpperBound skipped m p.1 = [(failedStateId, upperBoundRate p.2)]) ∧
    (∀ s, (∀ p ∈ skipped, s ≠ p.1) →
      changeMatrixLowerBound skipped m s = m s ∧
      changeMatrixUpperBound skipped m s = m s) := by
  constructor
  · intro p hp v0 hrow
    constructor
    · rw [changeMatrixLowerBound, foldl_setFirst_mem lowerBoundRate skipped m hnodup p hp,
        hrow]
      rfl
    · rw [changeMatrixUpperBound, foldl_setFirst_mem upperBoundRate skipped m hnodup p hp,
        hrow]
      rfl
  · intro s hs
    exact ⟨foldl_setFirst_not_mem lowerBoundRate skipped m s hs,
      foldl_setFirst_not_mem upperBoundRate skipped m s hs⟩

/-- Witness for C9 at a concrete input: one skipped state 0 with failable
rates 2 and 3 and not-failable rate 6 over ℚ, provisional row `[(7, 0)]`.
The lower bound sets the value to 2+3+6 = 11, the upper bound to
1/(1/2+1/3+1/6) = 1, and the row of the non-skipped state 1 is unchanged. -/
theorem changeMatrixBounds_spec_witness :
    changeMatrixLowerBound [(0, SkippedStateInfo.mk [(2 : ℚ), 3] [6])]
        (fun s => if s = 0 then [(7, 0)] else [(1, 1)]) 0 = [(7, (11 : ℚ))] ∧
    changeMatrixUpperBound [(0, SkippedStateInfo.mk [(2 : ℚ), 3] [6])]
        (fun s => if s = 0 then [(7, 0)] else [(1, 1)]) 0 = [(7, (1 : ℚ))] ∧
    changeMatrixLowerBound [(0, SkippedStateInfo.mk [(2 : ℚ), 3] [6])]
        (fun s => if s = 0 then [(7, 0)] else [(1, 1)]) 1 = [(1, (1 : ℚ))] := by
  have h := changeMatrixBounds_spec [(0, SkippedStateInfo.mk [(2 : ℚ), 3] [6])]
    (fun s => if s = 0 then [(7, 0)] else [(1, 1)]) (by simp) 7
  have h1 := h.1 (0, SkippedStateInfo.mk [(2 : ℚ), 3] [6]) (by simp) 0 (by simp)
  have h2 := (h.2 1 (by simp)).1
  refine ⟨?_, ?_, ?_⟩
  · rw [h1.1]
    norm_num [lowerBoundRate]
  · rw [h1.2]
    norm_num [upperBoundRate]
  · rw [h2]
    norm_num

end DFTBounds

/-! ### Iterated set operators reach their fixed point within `card` steps -/

section IterateFixed

variable {α : Type} [Fintype α] [DecidableEq α]

theorem iterate_subset_of_inflationary (f : Finset α → Finset α) (hf : ∀ S, S ⊆ f S)
    (S0 : Finset α) {j k : ℕ} (hjk : j ≤ k) : f^[j] S0 ⊆ f^[k] S0 := by
  induction k with
  | zero => rw [Nat.le_zero.mp hjk]
  | succ k ih =>
    rcases Nat.lt_or_ge j (k + 1) with h | h
    · have := ih (Nat.lt_succ_iff.mp h)
      rw [Function.iterate_succ_apply']
      exact this.trans (hf _)
    · rw [Nat.le_antisymm hjk h]

theorem iterate_fixed_of_inflationary (f : Finset α → Finset α) (hf : ∀ S, S ⊆ f S)
    (S0 : Finset α) :
    f (f^[Fintype.card α] S0) = f^[Fintype.card α] S0 := by
  by_cases hstab : ∃ j < Fintype.card α, f^[j + 1] S0 = f^[j] S0
  · obtain ⟨j, hj, hfix⟩ := hstab
    have hfixa : f (f^[j] S0) = f^[j] S0 := by
      rw [← Function.iterate_succ_apply' f j S0]
      exact hfix
    have hiter : f^[Fintype.card α] S0 = f^[j] S0 := by
      have : Fintype.card α = (Fintype.card α - j) + j := by omega
      rw [this, Function.iterate_add_apply]
      exact Function.iterate_fixed hfixa _
    rw [hiter, hfixa]
  · push_neg at hstab
    have hgrow : ∀ j, j ≤ Fintype.card α → j ≤ (f^[j] S0).card := by
      intro j
      induction j with
      | zero => omega
      | succ j ih =>
        intro hj
        have h1 : j ≤ (f^[j] S0).card := ih (by omega)
        have h2 : f^[j] S0 ⊂ f^[j + 1] S0 := by
          refine ⟨by rw [Function.iterate_succ_apply']; exact hf _, ?_⟩
          intro hsub
          exact hstab j (by omega) (Finset.Subset.antisymm
            (by rw [Function.iterate_succ_apply']; exact hf _) hsub).symm
        have := Finset.card_lt_card h2
        omega
    have hcard : (f^[Fintype.card α] S0).card = Fintype.card α :=
      Nat.le_antisymm (Finset.card_le_univ _) (hgrow _ (le_refl _))
    have huniv : f^[Fintype.card α] S0 = Finset.univ := Finset.eq_univ_of_card _ hcard
    rw [huniv]
    exact Finset.Subset.antisymm (Finset.subset_univ _) (hf _)

theorem iterate_anti_of_monotone (f : Finset α → Finset α)
    (hmono : ∀ {S T : Finset α}, S ⊆ T → f S ⊆ f T) (S0 : Finset α) (h0 : f S0 ⊆ S0)
    (j : ℕ) : f^[j + 1] S0 ⊆ f^[j] S0 := by
  induction j with
  | zero => exact h0
  | succ j ih =>
    calc f^[j + 1 + 1] S0 = f (f^[j + 1] S0) := Function.iterate_succ_apply' f (j + 1) S0
      _ ⊆ f (f^[j] S0) := hmono ih
      _ = f^[j + 1] S0 := (Function.iterate_succ_apply' f j S0).symm

theorem iterate_fixed_of_monotone (f : Finset α → Finset α)
    (hmono : ∀ {S T : Finset α}, S ⊆ T → f S ⊆ f T) (S0 : Finset α) (h0 : f S0 ⊆ S0) :
    f (f^[Fintype.card α] S0) = f^[Fintype.card α] S0 := by
  by_cases hstab : ∃ j < Fintype.card α, f^[j + 1] S0 = f^[j] S0
  · obtain ⟨j, hj, hfix⟩ := hstab
    have hfixa : f (f^[j] S0) = f^[j] S0 := by
      rw [← Function.iterate_succ_apply' f j S0]
      exact hfix
    have hiter : f^[Fintype.card α] S0 = f^[j] S0 := by
      have : Fintype.card α = (Fintype.card α - j) + j := by omega
      rw [this, Function.iterate_add_apply]
      exact Function.iterate_fixed hfixa _
    rw [hiter, hfixa]
  · push_neg at hstab
    have hshrink : ∀ j, j ≤ Fintype.card α → (f^[j] S0).card + j ≤ S0.card := by
      intro j
      induction j with
      | zero => simp
      | succ j ih =>
        intro hj
        have h1 := ih (by omega)
        have h2 : f^[j + 1] S0 ⊂ f^[j] S0 := by
          refine ⟨iterate_anti_of_monotone f hmono S0 h0 j, ?_⟩
          intro hsub
          exact hstab j (by omega) (Finset.Subset.antisymm
            (iterate_anti_of_monotone f hmono S0 h0 j) hsub)
        have := Finset.card_lt_card h2
        omega
    have hempty : f^[Fintype.card α] S0 = ∅ := by
      have h1 := hshrink (Fintype.card α) (le_refl _)
      have h2 : S0.card ≤ Fintype.card α := Finset.card_le_univ _
      have : (f^[Fintype.card α] S0).card = 0 := by omega
      exact Finset.card_eq_zero.mp this
    have hnext : f^[Fintype.card α + 1] S0 ⊆ f^[Fintype.card α] S0 :=
      iterate_anti_of_monotone f hmono S0 h0 _
    rw [Function.iterate_succ_apply'] at hnext
    rw [hempty] at hnext ⊢
    exact Finset.subset_empty.mp hnext

end IterateFixed

/-! ### Graph kernel facts -/

section GraphKernelFacts

variable {α : Type} [Fintype α] [DecidableEq α] {V : Type} [Zero V] [DecidableEq V]
variable (p : α → α → V) (phi psi : Finset α)

theorem pg0Step_inflationary (S : Finset α) : S ⊆ pg0Step p phi S :=
  Finset.subset_union_left

theorem mem_pg0Step {S : Finset α} {s : α} :
    s ∈ pg0Step p phi S ↔ s ∈ S ∨ (s ∈ phi ∧ ∃ q ∈ S, p s q ≠ 0) := by
  simp [pg0Step, Finset.mem_union, Finset.mem_filter]

theorem psi_subset_performProbGreater0 : psi ⊆ performProbGreater0 p phi psi :=
  iterate_subset_of_inflationary _ (pg0Step_inflationary p phi) psi (Nat.zero_le _)

theorem performProbGreater0_fixed :
    pg0Step p phi (performProbGreater0 p phi psi) = performProbGreater0 p phi psi :=
  iterate_fixed_of_inflationary _ (pg0Step_inflationary p phi) psi

theorem performProbGreater0_closed {s q : α} (hs : s ∈ phi)
    (hq : q ∈ performProbGreater0 p phi psi) (hpq : p s q ≠ 0) :
    s ∈ performProbGreater0 p phi psi := by
  have := performProbGreater0_fixed p phi psi
  rw [← this, mem_pg0Step]
  exact Or.inr ⟨hs, q, hq, hpq⟩

theorem performProbGreater0_mem_phi_psi :
    ∀ {k : ℕ} {s : α}, s ∈ (pg0Step p phi)^[k] psi → s ∈ psi ∨ s ∈ phi := by
  intro k
  induction k with
  | zero => exact fun hs => Or.inl hs
  | succ k ih =>
    intro s hs
    rw [Function.iterate_succ_apply', mem_pg0Step] at hs
    rcases hs with hs | hs
    · exact ih hs
    · exact Or.inr hs.1

theorem prob1Step_monotone {G S T : Finset α} (hST : S ⊆ T) :
    prob1Step p psi G S ⊆ prob1Step p psi G T := by
  intro s hs
  rw [prob1Step, Finset.mem_filter] at hs ⊢
  refine ⟨hs.1, ?_⟩
  rcases hs.2 with h | h
  · exact Or.inl h
  · exact Or.inr (fun q hq => hST (h q hq))

theorem prob1Step_subset (G S : Finset α) : prob1Step p psi G S ⊆ G :=
  Finset.filter_subset _ _

theorem performProb1_subset :
    performProb1 p phi psi ⊆ performProbGreater0 p phi psi := by
  unfold performProb1
  cases hcard : Fintype.card α with
  | zero => exact fun s hs => hs
  | succ k =>
    rw [Function.iterate_succ_apply']
    exact prob1Step_subset p psi _ _

theorem psi_subset_performProb1 : psi ⊆ performProb1 p phi psi := by
  unfold performProb1
  have : ∀ k, psi ⊆ (prob1Step p psi (performProbGreater0 p phi psi))^[k]
      (performProbGreater0 p phi psi) := by
    intro k
    induction k with
    | zero => exact psi_subset_performProbGreater0 p phi psi
    | succ k ih =>
      rw [Function.iterate_succ_apply']
      intro s hs
      rw [prob1Step, Finset.mem_filter]
      exact ⟨psi_subset_performProbGreater0 p phi psi hs, Or.inl hs⟩
  exact this _

theorem performProb1_fixed :
    prob1Step p psi (performProbGreater0 p phi psi) (performProb1 p phi psi)
      = performProb1 p phi psi :=
  iterate_fixed_of_monotone _ (fun h => prob1Step_monotone p psi h) _
    (prob1Step_subset p psi _ _)

theorem performProb1_closed {s : α} (hs : s ∈ performProb1 p phi psi) :
    s ∈ psi ∨ ∀ q, p s q ≠ 0 → q ∈ performProb1 p phi psi := by
  have := performProb1_fixed p phi psi
  rw [← this, prob1Step, Finset.mem_filter] at hs
  exact hs.2

end GraphKernelFacts

/-! ### Reachability probability facts

Facts about `probReachWithin`/`probReach` for a probabilistic matrix
(nonnegative entries, rows summing to one), including the two bridges from
the qualitative graph kernels to the quantitative semantics: the
`perform_prob_greater_0` set is exactly the set of states with positive
probability, and the `perform_prob_1` set exactly the set of states with
probability one. -/

section SemanticsFacts

open Filter Topology

variable {α : Type} [Fintype α] [DecidableEq α]
variable (p : α → α → ℝ) (phi psi : Finset α)

theorem probReachWithin_nonneg (hnn : ∀ s q, 0 ≤ p s q) :
    ∀ k s, 0 ≤ probReachWithin p phi psi k s := by
  intro k
  induction k with
  | zero => intro s; exact le_refl 0
  | succ k ih =>
    intro s
    rw [probReachWithin]
    split_ifs
    · exact zero_le_one
    · exact Finset.sum_nonneg (fun q _ => mul_nonneg (hnn s q) (ih q))
    · exact le_refl 0

theorem probReachWithin_le_one (hnn : ∀ s q, 0 ≤ p s q) (hrow : ∀ s, ∑ q, p s q = 1) :
    ∀ k s, probReachWithin p phi psi k s ≤ 1 := by
  intro k
  induction k with
  | zero => intro s; exact zero_le_one
  | succ k ih =>
    intro s
    rw [probReachWithin]
    split_ifs
    · exact le_refl 1
    · calc ∑ q, p s q * probReachWithin p phi psi k q
          ≤ ∑ q, p s q * 1 :=
            Finset.sum_le_sum (fun q _ => mul_le_mul_of_nonneg_left (ih q) (hnn s q))
        _ = 1 := by simp [hrow s]
    · exact zero_le_one

theorem probReachWithin_mono (hnn : ∀ s q, 0 ≤ p s q) :
    ∀ k s, probReachWithin p phi psi k s ≤ probReachWithin p phi psi (k + 1) s := by
  intro k
  induction k with
  | zero => intro s; exact probReachWithin_nonneg p phi psi hnn 1 s
  | succ k ih =>
    intro s
    rw [probReachWithin, probReachWithin]
    split_ifs
    · exact le_refl 1
    · exact Finset.sum_le_sum (fun q _ => mul_le_mul_of_nonneg_left (ih q) (hnn s q))
    · exact le_refl 0

theorem probReachWithin_monotone (hnn : ∀ s q, 0 ≤ p s q) (s : α) :
    Monotone (fun k => probReachWithin p phi psi k s) :=
  monotone_nat_of_le_succ (fun k => probReachWithin_mono p phi psi hnn k s)

theorem probReachWithin_bddAbove (hnn : ∀ s q, 0 ≤ p s q)
    (hrow : ∀ s, ∑ q, p s q = 1) (s : α) :
    BddAbove (Set.range (fun k => probReachWithin p phi psi k s)) := by
  refine ⟨1, ?_⟩
  rintro x ⟨k, rfl⟩
  exact probReachWithin_le_one p phi psi hnn hrow k s

theorem probReachWithin_le_probReach (hnn : ∀ s q, 0 ≤ p s q)
    (hrow : ∀ s, ∑ q, p s q = 1) (k : ℕ) (s : α) :
    probReachWithin p phi psi k s ≤ probReach p phi psi s :=
  le_ciSup (probReachWithin_bddAbove p phi psi hnn hrow s) k

theorem probReach_nonneg (hnn : ∀ s q, 0 ≤ p s q) (hrow : ∀ s, ∑ q, p s q = 1) (s : α) :
    0 ≤ probReach p phi psi s :=
  probReachWithin_le_probReach p phi psi hnn hrow 0 s

theorem probReach_le_one (hnn : ∀ s q, 0 ≤ p s q) (hrow : ∀ s, ∑ q, p s q = 1) (s : α) :
    probReach p phi psi s ≤ 1 :=
  ciSup_le (fun k => probReachWithin_le_one p phi psi hnn hrow k s)

theorem probReach_tendsto (hnn : ∀ s q, 0 ≤ p s q) (hrow : ∀ s, ∑ q, p s q = 1) (s : α) :
    Tendsto (fun k => probReachWithin p phi psi k s) atTop (𝓝 (probReach p phi psi s)) :=
  tendsto_atTop_ciSup (probReachWithin_monotone p phi psi hnn s)
    (probReachWithin_bddAbove p phi psi hnn hrow s)

theorem probReach_psi {s : α} (hnn : ∀ s q, 0 ≤ p s q) (hrow : ∀ s, ∑ q, p s q = 1)
    (hs : s ∈ psi) : probReach p phi psi s = 1 := by
  apply le_antisymm (probReach_le_one p phi psi hnn hrow s)
  have h1 : probReachWithin p phi psi 1 s = 1 := by
    rw [probReachWithin]
    simp [hs]
  calc (1 : ℝ) = probReachWithin p phi psi 1 s := h1.symm
    _ ≤ probReach p phi psi s := probReachWithin_le_probReach p phi psi hnn hrow 1 s

theorem probReach_not_phi {s : α} (hs1 : s ∉ phi) (hs2 : s ∉ psi) :
    probReach p phi psi s = 0 := by
  have h : (fun k => probReachWithin p phi psi k s) = fun _ => (0 : ℝ) := by
    funext k
    cases k with
    | zero => rfl
    | succ k =>
      rw [probReachWithin]
      simp [hs1, hs2]
  rw [probReach, h]
  exact ciSup_const

theorem probReach_step {s : α} (hnn : ∀ s q, 0 ≤ p s q) (hrow : ∀ s, ∑ q, p s q = 1)
    (hs1 : s ∈ phi) (hs2 : s ∉ psi) :
    probReach p phi psi s = ∑ q, p s q * probReach p phi psi q := by
  have h1 : Tendsto (fun k => probReachWithin p phi psi (k + 1) s) atTop
      (𝓝 (probReach p phi psi s)) :=
    (probReach_tendsto p phi psi hnn hrow s).comp (tendsto_add_atTop_nat 1)
  have h2 : (fun k => probReachWithin p phi psi (k + 1) s)
      = fun k => ∑ q, p s q * probReachWithin p phi psi k q := by
    funext k
    rw [probReachWithin]
    simp [hs1, hs2]
  have h3 : Tendsto (fun k => ∑ q, p s q * probReachWithin p phi psi k q) atTop
      (𝓝 (∑ q, p s q * probReach p phi psi q)) :=
    tendsto_finset_sum _ (fun q _ => (probReach_tendsto p phi psi hnn hrow q).const_mul _)
  rw [h2] at h1
  exact tendsto_nhds_unique h1 h3

theorem probReachWithin_zero_of_not_pg0 {s : α}
    (hs : s ∉ performProbGreater0 p phi psi) (k : ℕ) :
    probReachWithin p phi psi k s = 0 := by
  induction k generalizing s with
  | zero => rfl
  | succ k ih =>
    have hpsi : s ∉ psi := fun hc => hs (psi_subset_performProbGreater0 p phi psi hc)
    rw [probReachWithin]
    simp only [hpsi, if_false]
    split_ifs with hphi
    · apply Finset.sum_eq_zero
      intro q _
      by_cases hq : p s q = 0
      · rw [hq, zero_mul]
      · have hq2 : q ∉ performProbGreater0 p phi psi := by
          intro hc
          exact hs (performProbGreater0_closed p phi psi hphi hc hq)
        rw [ih hq2, mul_zero]
    · rfl

theorem probReach_zero_of_not_pg0 {s : α} (hs : s ∉ performProbGreater0 p phi psi) :
    probReach p phi psi s = 0 := by
  have h : (fun k => probReachWithin p phi psi k s) = fun _ => (0 : ℝ) :=
    funext (fun k => probReachWithin_zero_of_not_pg0 p phi psi hs k)
  rw [probReach, h]
  exact ciSup_const

theorem probReach_pos_of_pg0 {s : α} (hnn : ∀ s q, 0 ≤ p s q)
    (hrow : ∀ s, ∑ q, p s q = 1) (hs : s ∈ performProbGreater0 p phi psi) :
    0 < probReach p phi psi s := by
  have key : ∀ j t, t ∈ (pg0Step p phi)^[j] psi →
      ∃ k, 0 < probReachWithin p phi psi k t := by
    intro j
    induction j with
    | zero =>
      intro t ht
      rw [Function.iterate_zero_apply] at ht
      refine ⟨1, ?_⟩
      rw [probReachWithin]
      simp [ht]
    | succ j ih =>
      intro t ht
      rw [Function.iterate_succ_apply', mem_pg0Step] at ht
      rcases ht with ht | ⟨htphi, q, hq, hpq⟩
      · exact ih t ht
      · by_cases htpsi : t ∈ psi
        · refine ⟨1, ?_⟩
          rw [probReachWithin]
          simp [htpsi]
        · obtain ⟨k, hk⟩ := ih q hq
          refine ⟨k + 1, ?_⟩
          rw [probReachWithin]
          simp only [htpsi, if_false, htphi, if_true]
          calc (0 : ℝ) < p t q * probReachWithin p phi psi k q :=
              mul_pos (lt_of_le_of_ne (hnn t q) (Ne.symm hpq)) hk
            _ ≤ ∑ u, p t u * probReachWithin p phi psi k u :=
              Finset.single_le_sum
                (fun u _ => mul_nonneg (hnn t u)
                  (probReachWithin_nonneg p phi psi hnn k u))
                (Finset.mem_univ q)
  obtain ⟨k, hk⟩ := key (Fintype.card α) s hs
  exact lt_of_lt_of_le hk (probReachWithin_le_probReach p phi psi hnn hrow k s)

theorem probReach_one_of_prob1 {s : α} (hnn : ∀ s q, 0 ≤ p s q)
    (hrow : ∀ s, ∑ q, p s q = 1) (hs : s ∈ performProb1 p phi psi) :
    probReach p phi psi s = 1 := by
  classical
  set S := performProb1 p phi psi with hS
  have hSne : S.Nonempty := ⟨s, hs⟩
  -- the uniform positive lower bound on nonzero transition probabilities
  obtain ⟨c, hc0, hc1, hcmin⟩ : ∃ c : ℝ, 0 < c ∧ c ≤ 1 ∧ ∀ a b, p a b ≠ 0 → c ≤ p a b := by
    set P := (Finset.univ ×ˢ Finset.univ).filter (fun ab : α × α => p ab.1 ab.2 ≠ 0) with hP
    have hPne : P.Nonempty := by
      obtain ⟨q, _, hq⟩ := Finset.exists_ne_zero_of_sum_ne_zero
        (by rw [hrow s]; exact one_ne_zero)
      exact ⟨(s, q), by simp [hP, hq]⟩
    have hPim : (P.image (fun ab => p ab.1 ab.2)).Nonempty := hPne.image _
    refine ⟨(P.image (fun ab => p ab.1 ab.2)).min' hPim, ?_, ?_, ?_⟩
    · obtain ⟨ab, hab, habe⟩ := Finset.mem_image.mp (Finset.min'_mem _ hPim)
      rw [← habe]
      rw [hP, Finset.mem_filter] at hab
      exact lt_of_le_of_ne (hnn ab.1 ab.2) (Ne.symm hab.2)
    · obtain ⟨ab, hab, habe⟩ := Finset.mem_image.mp (Finset.min'_mem _ hPim)
      rw [← habe]
      calc p ab.1 ab.2 ≤ ∑ q, p ab.1 q :=
            Finset.single_le_sum (fun q _ => hnn ab.1 q) (Finset.mem_univ ab.2)
        _ = 1 := hrow ab.1
    · intro a b hab
      exact Finset.min'_le _ _ (Finset.mem_image.mpr ⟨(a, b), by simp [hP, hab], rfl⟩)
  set N := Fintype.card α with hN
  set E : ℕ → ℝ := fun m => S.sup' hSne (fun t => 1 - probReachWithin p phi psi m t)
    with hE
  have hmemE : ∀ m, ∀ t ∈ S, 1 - probReachWithin p phi psi m t ≤ E m := by
    intro m t ht
    simp only [hE]
    exact Finset.le_sup' (fun t => 1 - probReachWithin p phi psi m t) ht
  have hE0 : ∀ m, 0 ≤ E m := fun m =>
    le_trans (by linarith [probReachWithin_le_one p phi psi hnn hrow m s]) (hmemE m s hs)
  have hE1 : ∀ m, E m ≤ 1 := by
    intro m
    simp only [hE]
    apply Finset.sup'_le
    intro t _
    linarith [probReachWithin_nonneg p phi psi hnn m t]
  -- every prob-1 state within reach-layer j is 1 - c^j close to psi in j steps
  have hkey : ∀ j, ∀ t, t ∈ S → t ∈ (pg0Step p phi)^[j] psi → ∀ m,
      1 - probReachWithin p phi psi (m + j + 1) t ≤ (1 - c ^ j) * E m := by
    intro j
    induction j with
    | zero =>
      intro t _ ht m
      rw [Function.iterate_zero_apply] at ht
      rw [probReachWithin]
      simp only [ht, if_true, pow_zero, sub_self, zero_mul]
      linarith
    | succ j ih =>
      intro t htS ht m
      by_cases htpsi : t ∈ psi
      · rw [probReachWithin]
        simp only [htpsi, if_true, sub_self]
        have : c ^ (j + 1) ≤ 1 := pow_le_one₀ (le_of_lt hc0) hc1
        nlinarith [hE0 m]
      · have htphi : t ∈ phi := by
          rcases performProbGreater0_mem_phi_psi p phi psi ht with h | h
          · exact absurd h htpsi
          · exact h
        have hclose : ∀ q, p t q ≠ 0 → q ∈ S := by
          rcases performProb1_closed p phi psi htS with h | h
          · exact absurd h htpsi
          · exact h
        rw [Function.iterate_succ_apply', mem_pg0Step] at ht
        rcases ht with ht | ⟨_, q0, hq0, hpq0⟩
        · -- already in an earlier layer: weaken the bound
          have := ih t htS ht m
          have hmono2 : probReachWithin p phi psi (m + j + 1) t
              ≤ probReachWithin p phi psi (m + (j + 1) + 1) t := by
            apply probReachWithin_monotone p phi psi hnn t
            omega
          have hpow : c ^ (j + 1) ≤ c ^ j :=
            pow_le_pow_of_le_one (le_of_lt hc0) hc1 (by omega)
          nlinarith [hE0 m]
        · have hq0S : q0 ∈ S := hclose q0 hpq0
          have hq0c : c ≤ p t q0 := hcmin t q0 hpq0
          have hstep : probReachWithin p phi psi (m + (j + 1) + 1) t
              = ∑ q, p t q * probReachWithin p phi psi (m + j + 1) q := by
            have : m + (j + 1) + 1 = (m + j + 1) + 1 := by omega
            rw [this, probReachWithin]
            simp [htpsi, htphi]
          have hsplit : 1 - probReachWithin p phi psi (m + (j + 1) + 1) t
              = ∑ q, p t q * (1 - probReachWithin p phi psi (m + j + 1) q) := by
            rw [hstep]
            have hd : ∑ q, p t q * (1 - probReachWithin p phi psi (m + j + 1) q)
                = (∑ q, p t q) - ∑ q, p t q * probReachWithin p phi psi (m + j + 1) q := by
              simp only [mul_sub, mul_one]
              rw [Finset.sum_sub_distrib]
            rw [hd, hrow t]
          rw [hsplit]
          rw [← Finset.add_sum_erase _ _ (Finset.mem_univ q0)]
          have hterm1 : p t q0 * (1 - probReachWithin p phi psi (m + j + 1) q0)
              ≤ p t q0 * ((1 - c ^ j) * E m) :=
            mul_le_mul_of_nonneg_left (ih q0 hq0S hq0 m) (hnn t q0)
          have hterm2 : ∑ q ∈ Finset.univ.erase q0,
                p t q * (1 - probReachWithin p phi psi (m + j + 1) q)
              ≤ ∑ q ∈ Finset.univ.erase q0, p t q * E m := by
            apply Finset.sum_le_sum
            intro q _
            by_cases hq : p t q = 0
            · rw [hq, zero_mul, zero_mul]
            · apply mul_le_mul_of_nonneg_left _ (hnn t q)
              have hmw : probReachWithin p phi psi m q
                  ≤ probReachWithin p phi psi (m + j + 1) q :=
                probReachWithin_monotone p phi psi hnn q (by omega)
              calc 1 - probReachWithin p phi psi (m + j + 1) q
                  ≤ 1 - probReachWithin p phi psi m q := by linarith
                _ ≤ E m := hmemE m q (hclose q hq)
          have hsum2 : ∑ q ∈ Finset.univ.erase q0, p t q = 1 - p t q0 := by
            have := Finset.add_sum_erase Finset.univ (fun q => p t q) (Finset.mem_univ q0)
            rw [hrow t] at this
            linarith
          have hsum2' : ∑ q ∈ Finset.univ.erase q0, p t q * E m = (1 - p t q0) * E m := by
            rw [← Finset.sum_mul, hsum2]
          have hcj : (0 : ℝ) ≤ c ^ j := le_of_lt (pow_pos hc0 j)
          have hle1 : p t q0 ≤ 1 := by
            calc p t q0 ≤ ∑ q, p t q :=
                Finset.single_le_sum (fun q _ => hnn t q) (Finset.mem_univ q0)
              _ = 1 := hrow t
          calc p t q0 * (1 - probReachWithin p phi psi (m + j + 1) q0)
                + ∑ q ∈ Finset.univ.erase q0,
                  p t q * (1 - probReachWithin p phi psi (m + j + 1) q)
              ≤ p t q0 * ((1 - c ^ j) * E m) + (1 - p t q0) * E m := by
                rw [← hsum2']
                exact add_le_add hterm1 hterm2
            _ = (1 - p t q0 * c ^ j) * E m := by ring
            _ ≤ (1 - c ^ (j + 1)) * E m := by
                apply mul_le_mul_of_nonneg_right _ (hE0 m)
                have : c ^ (j + 1) ≤ p t q0 * c ^ j := by
                  rw [pow_succ, mul_comm (c ^ j) c]
                  exact mul_le_mul_of_nonneg_right hq0c hcj
                linarith
  have hSsub : S ⊆ (pg0Step p phi)^[N] psi := performProb1_subset p phi psi
  have hstep : ∀ m, E (m + N + 1) ≤ (1 - c ^ N) * E m := by
    intro m
    have : E (m + N + 1) = S.sup' hSne
        (fun t => 1 - probReachWithin p phi psi (m + N + 1) t) := by simp only [hE]
    rw [this]
    apply Finset.sup'_le
    intro t ht
    exact hkey N t ht (hSsub ht) m
  have hiter : ∀ i, E ((N + 1) * i) ≤ (1 - c ^ N) ^ i := by
    intro i
    induction i with
    | zero => simpa using hE1 0
    | succ i ih =>
      have heq : (N + 1) * (i + 1) = (N + 1) * i + N + 1 := by ring
      rw [heq, pow_succ]
      calc E ((N + 1) * i + N + 1) ≤ (1 - c ^ N) * E ((N + 1) * i) := hstep _
        _ ≤ (1 - c ^ N) * (1 - c ^ N) ^ i := by
            apply mul_le_mul_of_nonneg_left ih
            have : c ^ N ≤ 1 := pow_le_one₀ (le_of_lt hc0) hc1
            linarith
        _ = (1 - c ^ N) ^ i * (1 - c ^ N) := by ring
  have hfinal : ∀ i, 1 - probReach p phi psi s ≤ (1 - c ^ N) ^ i := by
    intro i
    calc 1 - probReach p phi psi s
        ≤ 1 - probReachWithin p phi psi ((N + 1) * i) s := by
          linarith [probReachWithin_le_probReach p phi psi hnn hrow ((N + 1) * i) s]
      _ ≤ E ((N + 1) * i) := hmemE _ s hs
      _ ≤ (1 - c ^ N) ^ i := hiter i
  have htend : Tendsto (fun i => (1 - c ^ N) ^ i) atTop (𝓝 0) := by
    apply tendsto_pow_atTop_nhds_zero_of_lt_one
    · have : c ^ N ≤ 1 := pow_le_one₀ (le_of_lt hc0) hc1
      linarith
    · have : 0 < c ^ N := pow_pos hc0 N
      linarith
  have hle : 1 - probReach p phi psi s ≤ 0 :=
    ge_of_tendsto htend (Filter.Eventually.of_forall hfinal)
  have := probReach_le_one p phi psi hnn hrow s
  linarith

theorem probReach_lt_one_of_not_prob1 {s : α} (hnn : ∀ s q, 0 ≤ p s q)
    (hrow : ∀ s, ∑ q, p s q = 1) (hs : s ∉ performProb1 p phi psi) :
    probReach p phi psi s < 1 := by
  set G := performProbGreater0 p phi psi with hG
  have key : ∀ j t, t ∉ (prob1Step p psi G)^[j] G → probReach p phi psi t < 1 := by
    intro j
    induction j with
    | zero =>
      intro t ht
      rw [probReach_zero_of_not_pg0 p phi psi ht]
      exact zero_lt_one
    | succ j ih =>
      intro t ht
      rw [Function.iterate_succ_apply'] at ht
      by_cases htG : t ∈ G
      · rw [prob1Step, Finset.mem_filter] at ht
        push_neg at ht
        obtain ⟨htpsi, q, hpq, hqT⟩ := ht htG
        by_cases htphi : t ∈ phi
        · have hql1 : probReach p phi psi q < 1 := ih q hqT
          have hpq0 : 0 < p t q := lt_of_le_of_ne (hnn t q) (Ne.symm hpq)
          rw [probReach_step p phi psi hnn hrow htphi htpsi]
          rw [← Finset.add_sum_erase _ _ (Finset.mem_univ q)]
          have h1 : p t q * probReach p phi psi q < p t q * 1 :=
            (mul_lt_mul_left hpq0).mpr hql1
          have h2 : ∑ u ∈ Finset.univ.erase q, p t u * probReach p phi psi u
              ≤ ∑ u ∈ Finset.univ.erase q, p t u := by
            apply Finset.sum_le_sum
            intro u _
            calc p t u * probReach p phi psi u ≤ p t u * 1 :=
                mul_le_mul_of_nonneg_left (probReach_le_one p phi psi hnn hrow u) (hnn t u)
              _ = p t u := mul_one _
          have h3 : ∑ u ∈ Finset.univ.erase q, p t u = 1 - p t q := by
            have := Finset.add_sum_erase Finset.univ (fun u => p t u) (Finset.mem_univ q)
            rw [hrow t] at this
            linarith
          calc p t q * probReach p phi psi q
                + ∑ u ∈ Finset.univ.erase q, p t u * probReach p phi psi u
              < p t q * 1 + (1 - p t q) := by
                rw [← h3]
                exact add_lt_add_of_lt_of_le h1 h2
            _ = 1 := by ring
        · rw [probReach_not_phi p phi psi htphi htpsi]
          exact zero_lt_one
      · rw [probReach_zero_of_not_pg0 p phi psi htG]
        exact zero_lt_one
  exact key (Fintype.card α) s hs

end SemanticsFacts

/-! ### State elimination: invariants

The master invariant: a vector `x` solving the affine system
`x = vals + M·x` keeps solving it after each elimination step, the system
stays substochastic with nonnegative entries, columns of eliminated states
stay zero, and every remaining state keeps an escape path to a positive
value.  The escape invariant forces every eliminated self-loop to be `< 1`,
so the loop factor is well defined. -/

section EliminationFacts

variable {σ : Type} [Fintype σ] [DecidableEq σ] {V : Type} [LinearOrderedField V]

theorem pg0Step_monotone {α : Type} [Fintype α] [DecidableEq α] {W : Type} [Zero W]
    [DecidableEq W] (p : α → α → W) (phi : Finset α) {S T : Finset α} (hST : S ⊆ T) :
    pg0Step p phi S ⊆ pg0Step p phi T := by
  intro s hs
  rw [mem_pg0Step] at hs ⊢
  rcases hs with hs | ⟨hphi, q, hq, hpq⟩
  · exact Or.inl (hST hs)
  · exact Or.inr ⟨hphi, q, hST hq, hpq⟩

theorem pg0_iterate_subset {α : Type} [Fintype α] [DecidableEq α] {W : Type} [Zero W]
    [DecidableEq W] (p : α → α → W) (phi psi : Finset α) (j : ℕ) :
    (pg0Step p phi)^[j] psi ⊆ performProbGreater0 p phi psi := by
  induction j with
  | zero => exact psi_subset_performProbGreater0 p phi psi
  | succ j ih =>
    rw [Function.iterate_succ_apply']
    calc pg0Step p phi ((pg0Step p phi)^[j] psi)
        ⊆ pg0Step p phi (performProbGreater0 p phi psi) := pg0Step_monotone p phi ih
      _ = performProbGreater0 p phi psi := performProbGreater0_fixed p phi psi

theorem performElimFalse_nil (M : σ → σ → V) (vals : σ → V) :
    performPrioritizedStateElimination ∅ false [] M vals = (M, vals) := rfl

theorem performElimFalse_cons (s : σ) (rest : List σ) (M : σ → σ → V) (vals : σ → V) :
    performPrioritizedStateElimination ∅ false (s :: rest) M vals
      = performPrioritizedStateElimination ∅ false rest
          (eliminateState M vals s false).1 (eliminateState M vals s false).2 := by
  unfold performPrioritizedStateElimination
  rw [List.foldl_cons]
  simp

theorem selfLoop_lt_one (M : σ → σ → V) (vals : σ → V) (elim : Finset σ) (s : σ)
    (hnn : ∀ t q, 0 ≤ M t q) (hvnn : ∀ t, 0 ≤ vals t)
    (hrow : ∀ t, (∑ q, M t q) + vals t ≤ 1)
    (hesc : ∃ k, escapes M vals elim k s) : M s s < 1 := by
  obtain ⟨k, hk⟩ := hesc
  have hMss : M s s ≤ ∑ q, M s q :=
    Finset.single_le_sum (fun q _ => hnn s q) (Finset.mem_univ s)
  cases k with
  | zero =>
    rw [escapes] at hk
    have := hrow s
    have := hvnn s
    linarith
  | succ k =>
    rw [escapes] at hk
    rcases hk with hk | ⟨u, _, hus, hMsu, _⟩
    · have := hrow s
      linarith
    · have hpair : M s s + M s u ≤ ∑ q, M s q := by
        have h1 : ∑ q ∈ ({s, u} : Finset σ), M s q ≤ ∑ q, M s q :=
          Finset.sum_le_sum_of_subset_of_nonneg (Finset.subset_univ _)
            (fun q _ _ => hnn s q)
        rw [Finset.sum_pair (Ne.symm hus)] at h1
        exact h1
      have := hrow s
      have := hvnn s
      linarith

theorem eliminateState_invariants (M : σ → σ → V) (vals : σ → V) (elim : Finset σ)
    (s : σ) (x : σ → V) (hs : s ∉ elim)
    (hx : ∀ t, x t = vals t + ∑ q, M t q * x q)
    (hnn : ∀ t q, 0 ≤ M t q) (hvnn : ∀ t, 0 ≤ vals t)
    (hrow : ∀ t, (∑ q, M t q) + vals t ≤ 1)
    (hzero : ∀ t q, q ∈ elim → M t q = 0)
    (hesc : ∀ t, t ∉ elim → ∃ k, escapes M vals elim k t) :
    (∀ t, x t = (eliminateState M vals s false).2 t
      + ∑ q, (eliminateState M vals s false).1 t q * x q) ∧
    (∀ t q, 0 ≤ (eliminateState M vals s false).1 t q) ∧
    (∀ t, 0 ≤ (eliminateState M vals s false).2 t) ∧
    (∀ t, (∑ q, (eliminateState M vals s false).1 t q)
      + (eliminateState M vals s false).2 t ≤ 1) ∧
    (∀ t q, q ∈ insert s elim → (eliminateState M vals s false).1 t q = 0) ∧
    (∀ t, t ∉ insert s elim → ∃ k,
      escapes (eliminateState M vals s false).1 (eliminateState M vals s false).2
        (insert s elim) k t) := by
  have hL : M s s < 1 := selfLoop_lt_one M vals elim s hnn hvnn hrow (hesc s hs)
  have hL1 : 0 < 1 - M s s := by linarith
  set f : V := 1 / (1 - M s s) with hf_def
  have hf : 0 < f := by
    rw [hf_def]
    exact div_pos one_pos hL1
  have hfL : f * (1 - M s s) = 1 := by
    rw [hf_def]
    exact one_div_mul_cancel (ne_of_gt hL1)
  have hM1 : ∀ t q, (eliminateState M vals s false).1 t q
      = if t = s then (if q = s then 0 else f * M s q)
        else if q = s then 0 else M t q + M t s * (f * M s q) := by
    intro t q
    rw [eliminateState]
    simp only [Bool.false_eq_true, if_false, hf_def]
  have hM2 : ∀ t, (eliminateState M vals s false).2 t
      = if t = s then f * vals s else vals t + M t s * (f * vals s) := by
    intro t
    rw [eliminateState, hf_def]
  -- the scaled equation of the eliminated state
  have hxs : x s = f * vals s + ∑ q ∈ Finset.univ.erase s, (f * M s q) * x q := by
    have h1 := hx s
    rw [← Finset.add_sum_erase _ _ (Finset.mem_univ s)] at h1
    have h2 : (1 - M s s) * x s = vals s + ∑ q ∈ Finset.univ.erase s, M s q * x q := by
      linarith
    have h3 : f * ((1 - M s s) * x s)
        = f * (vals s + ∑ q ∈ Finset.univ.erase s, M s q * x q) := by rw [h2]
    rw [← mul_assoc, hfL, one_mul] at h3
    rw [h3, mul_add, Finset.mul_sum]
    congr 1
    apply Finset.sum_congr rfl
    intro q _
    ring
  -- row sums of the new matrix
  have hsum : ∀ t, t ≠ s → ∑ q, (eliminateState M vals s false).1 t q
      = (∑ q, M t q) - M t s + M t s * (f * ((∑ q, M s q) - M s s)) := by
    intro t ht
    have h1 : ∑ q, (eliminateState M vals s false).1 t q
        = ∑ q ∈ Finset.univ.erase s, (M t q + M t s * (f * M s q)) := by
      rw [← Finset.add_sum_erase _ _ (Finset.mem_univ s)]
      have e1 : (eliminateState M vals s false).1 t s = 0 := by
        rw [hM1]
        simp [ht]
      rw [e1, zero_add]
      apply Finset.sum_congr rfl
      intro q hq
      rw [hM1]
      simp [ht, (Finset.mem_erase.mp hq).1]
    rw [h1, Finset.sum_add_distrib]
    have h2 : ∑ q ∈ Finset.univ.erase s, M t q = (∑ q, M t q) - M t s := by
      have := Finset.add_sum_erase Finset.univ (fun q => M t q) (Finset.mem_univ s)
      linarith
    have h3 : ∑ q ∈ Finset.univ.erase s, M t s * (f * M s q)
        = M t s * (f * ((∑ q, M s q) - M s s)) := by
      rw [← Finset.mul_sum, ← Finset.mul_sum]
      congr 2
      have := Finset.add_sum_erase Finset.univ (fun q => M s q) (Finset.mem_univ s)
      linarith
    rw [h2, h3]
  have hsums : ∑ q, (eliminateState M vals s false).1 s q
      = f * ((∑ q, M s q) - M s s) := by
    have h1 : ∑ q, (eliminateState M vals s false).1 s q
        = ∑ q ∈ Finset.univ.erase s, f * M s q := by
      rw [← Finset.add_sum_erase _ _ (Finset.mem_univ s)]
      have e1 : (eliminateState M vals s false).1 s s = 0 := by
        rw [hM1]
        simp
      rw [e1, zero_add]
      apply Finset.sum_congr rfl
      intro q hq
      rw [hM1]
      simp [(Finset.mem_erase.mp hq).1]
    rw [h1, ← Finset.mul_sum]
    congr 1
    have := Finset.add_sum_erase Finset.univ (fun q => M s q) (Finset.mem_univ s)
    linarith
  refine ⟨?_, ?_, ?_, ?_, ?_, ?_⟩
  · -- the solution is preserved
    intro t
    by_cases ht : t = s
    · subst ht
      rw [hM2]
      simp only [if_pos rfl]
      have h1 : ∑ q, (eliminateState M vals t false).1 t q * x q
          = ∑ q ∈ Finset.univ.erase t, (f * M t q) * x q := by
        rw [← Finset.add_sum_erase _ _ (Finset.mem_univ t)]
        have e1 : (eliminateState M vals t false).1 t t = 0 := by
          rw [hM1]
          simp
        rw [e1, zero_mul, zero_add]
        apply Finset.sum_congr rfl
        intro q hq
        rw [hM1]
        simp [(Finset.mem_erase.mp hq).1]
      rw [h1]
      exact hxs
    · rw [hM2]
      simp only [ht, if_false]
      have h1 : ∑ q, (eliminateState M vals s false).1 t q * x q
          = ∑ q ∈ Finset.univ.erase s, (M t q + M t s * (f * M s q)) * x q := by
        rw [← Finset.add_sum_erase _ _ (Finset.mem_univ s)]
        have e1 : (eliminateState M vals s false).1 t s = 0 := by
          rw [hM1]
          simp [ht]
        rw [e1, zero_mul, zero_add]
        apply Finset.sum_congr rfl
        intro q hq
        rw [hM1]
        simp [ht, (Finset.mem_erase.mp hq).1]
      rw [h1]
      have h2 : ∑ q ∈ Finset.univ.erase s, (M t q + M t s * (f * M s q)) * x q
          = (∑ q ∈ Finset.univ.erase s, M t q * x q)
            + M t s * ∑ q ∈ Finset.univ.erase s, (f * M s q) * x q := by
        rw [Finset.mul_sum, ← Finset.sum_add_distrib]
        apply Finset.sum_congr rfl
        intro q _
        ring
      rw [h2]
      have h3 := hx t
      rw [← Finset.add_sum_erase _ _ (Finset.mem_univ s)] at h3
      have h4 : M t s * x s
          = M t s * (f * vals s) + M t s * ∑ q ∈ Finset.univ.erase s, (f * M s q) * x q := by
        rw [← mul_add, ← hxs]
      linarith
  · -- nonnegative entries
    intro t q
    rw [hM1]
    split_ifs with h1 h2 h2
    · exact le_refl 0
    · exact mul_nonneg (le_of_lt hf) (hnn s q)
    · exact le_refl 0
    · exact add_nonneg (hnn t q) (mul_nonneg (hnn t s) (mul_nonneg (le_of_lt hf) (hnn s q)))
  · -- nonnegative values
    intro t
    rw [hM2]
    split_ifs
    · exact mul_nonneg (le_of_lt hf) (hvnn s)
    · exact add_nonneg (hvnn t) (mul_nonneg (hnn t s) (mul_nonneg (le_of_lt hf) (hvnn s)))
  · -- substochastic rows
    intro t
    have hinner : f * ((∑ q, M s q) - M s s + vals s) ≤ 1 := by
      have h1 : (∑ q, M s q) - M s s + vals s ≤ 1 - M s s := by
        have := hrow s
        linarith
      calc f * ((∑ q, M s q) - M s s + vals s) ≤ f * (1 - M s s) :=
          mul_le_mul_of_nonneg_left h1 (le_of_lt hf)
        _ = 1 := hfL
    by_cases ht : t = s
    · subst ht
      have e2 : (eliminateState M vals t false).2 t = f * vals t := by
        rw [hM2]
        simp
      rw [hsums, e2]
      have heq : f * ((∑ q, M t q) - M t t) + f * vals t
          = f * ((∑ q, M t q) - M t t + vals t) := by ring
      rw [heq]
      exact hinner
    · rw [hsum t ht, hM2]
      simp only [ht, if_false]
      have hts : 0 ≤ M t s := hnn t s
      have h2 : M t s * (f * ((∑ q, M s q) - M s s)) + M t s * (f * vals s)
          = M t s * (f * ((∑ q, M s q) - M s s + vals s)) := by ring
      have h3 : M t s * (f * ((∑ q, M s q) - M s s + vals s)) ≤ M t s * 1 :=
        mul_le_mul_of_nonneg_left hinner hts
      have h4 := hrow t
      linarith
  · -- columns of eliminated states stay zero
    intro t q hq
    rw [Finset.mem_insert] at hq
    rw [hM1]
    rcases hq with rfl | hq
    · simp
    · have hqs : q ≠ s := fun hc => hs (hc ▸ hq)
      simp only [hqs, if_false]
      split_ifs
      · rw [hzero s q hq, mul_zero]
      · rw [hzero t q hq, hzero s q hq, mul_zero, mul_zero, add_zero]
  · -- the escape invariant is preserved
    intro t ht
    have htel : t ∉ elim := fun hc => ht (Finset.mem_insert_of_mem hc)
    obtain ⟨k, hk⟩ := hesc t htel
    clear hx hzero
    induction k using Nat.strong_induction_on generalizing t with
    | _ k ih =>
      have hts : t ≠ s := fun hc => ht (hc ▸ Finset.mem_insert_self s elim)
      have hvals_ge : ∀ u, u ≠ s → vals u ≤ (eliminateState M vals s false).2 u := by
        intro u hu
        rw [hM2]
        simp only [hu, if_false]
        have : 0 ≤ M u s * (f * vals s) :=
          mul_nonneg (hnn u s) (mul_nonneg (le_of_lt hf) (hvnn s))
        linarith
      cases k with
      | zero =>
        rw [escapes] at hk
        refine ⟨0, ?_⟩
        rw [escapes]
        exact lt_of_lt_of_le hk (hvals_ge t hts)
      | succ k =>
        rw [escapes] at hk
        rcases hk with hk | ⟨u, hu_elim, hu_ne, hMtu, hesc_u⟩
        · refine ⟨0, ?_⟩
          rw [escapes]
          exact lt_of_lt_of_le hk (hvals_ge t hts)
        · by_cases hus : u = s
          · subst hus
            -- the escape went through the eliminated state: unfold once more
            cases k with
            | zero =>
              rw [escapes] at hesc_u
              refine ⟨0, ?_⟩
              rw [escapes, hM2]
              simp only [hts, if_false]
              have hpos : 0 < M t u * (f * vals u) :=
                mul_pos hMtu (mul_pos hf hesc_u)
              have := hvnn t
              linarith
            | succ k =>
              rw [escapes] at hesc_u
              rcases hesc_u with hvu | ⟨w, hw_elim, hw_ne, hMuw, hesc_w⟩
              · refine ⟨0, ?_⟩
                rw [escapes, hM2]
                simp only [hts, if_false]
                have hpos : 0 < M t u * (f * vals u) :=
                  mul_pos hMtu (mul_pos hf hvu)
                have := hvnn t
                linarith
              · by_cases hwt : w = t
                · rw [hwt] at hesc_w
                  exact ih k (by omega) t ht htel hesc_w
                · have hw_in : w ∉ insert u elim := by
                    rw [Finset.mem_insert]
                    push_neg
                    exact ⟨hw_ne, hw_elim⟩
                  obtain ⟨k', hk'⟩ := ih k (by omega) w hw_in hw_elim hesc_w
                  refine ⟨k' + 1, ?_⟩
                  rw [escapes]
                  refine Or.inr ⟨w, hw_in, Ne.symm (fun hc => hwt hc.symm), ?_, hk'⟩
                  rw [hM1]
                  simp only [hts, if_false, hw_ne, if_false]
                  have h1 : 0 < M t u * (f * M u w) :=
                    mul_pos hMtu (mul_pos hf hMuw)
                  have := hnn t w
                  linarith
          · have hu_in : u ∉ insert s elim := by
              rw [Finset.mem_insert]
              push_neg
              exact ⟨hus, hu_elim⟩
            obtain ⟨k', hk'⟩ := ih k (by omega) u hu_in hu_elim hesc_u
            refine ⟨k' + 1, ?_⟩
            rw [escapes]
            refine Or.inr ⟨u, hu_in, hu_ne, ?_, hk'⟩
            rw [hM1]
            simp only [hts, if_false, hus, if_false]
            have h1 : 0 ≤ M t s * (f * M s u) :=
              mul_nonneg (hnn t s) (mul_nonneg (le_of_lt hf) (hnn s u))
            linarith

theorem performElimFalse_invariants (x : σ → V) :
    ∀ (order : List σ) (M : σ → σ → V) (vals : σ → V) (elim : Finset σ),
      (∀ a ∈ order, a ∉ elim) → order.Nodup →
      (∀ t, x t = vals t + ∑ q, M t q * x q) →
      (∀ t q, 0 ≤ M t q) → (∀ t, 0 ≤ vals t) →
      (∀ t, (∑ q, M t q) + vals t ≤ 1) →
      (∀ t q, q ∈ elim → M t q = 0) →
      (∀ t, t ∉ elim → ∃ k, escapes M vals elim k t) →
      (∀ t, x t = (performPrioritizedStateElimination ∅ false order M vals).2 t
        + ∑ q, (performPrioritizedStateElimination ∅ false order M vals).1 t q * x q) ∧
      (∀ t q, q ∈ elim ∪ order.toFinset →
        (performPrioritizedStateElimination ∅ false order M vals).1 t q = 0) := by
  intro order
  induction order with
  | nil =>
    intro M vals elim _ _ hx _ _ _ hzero _
    rw [performElimFalse_nil]
    refine ⟨hx, ?_⟩
    intro t q hq
    rw [List.toFinset_nil, Finset.union_empty] at hq
    exact hzero t q hq
  | cons s rest ih =>
    intro M vals elim hmem hnodup hx hnn hvnn hrow hzero hesc
    rw [performElimFalse_cons]
    obtain ⟨h1, h2, h3, h4, h5, h6⟩ :=
      eliminateState_invariants M vals elim s x (hmem s (List.mem_cons_self s rest))
        hx hnn hvnn hrow hzero hesc
    have hmem' : ∀ a ∈ rest, a ∉ insert s elim := by
      intro a ha
      rw [Finset.mem_insert]
      push_neg
      constructor
      · intro hc
        rw [List.nodup_cons] at hnodup
        exact hnodup.1 (hc ▸ ha)
      · exact hmem a (List.mem_cons_of_mem s ha)
    have hres := ih (eliminateState M vals s false).1 (eliminateState M vals s false).2
      (insert s elim) hmem' (List.nodup_cons.mp hnodup).2 h1 h2 h3 h4 h5 h6
    refine ⟨hres.1, ?_⟩
    intro t q hq
    apply hres.2
    rw [Finset.mem_union] at hq ⊢
    rcases hq with hq | hq
    · exact Or.inl (Finset.mem_insert_of_mem hq)
    · rw [List.toFinset_cons, Finset.mem_insert] at hq
      rcases hq with rfl | hq
      · exact Or.inl (Finset.mem_insert_self q elim)
      · exact Or.inr hq

end EliminationFacts

/-! ### `computeUntilProbabilities` is correct (C1) -/

section UntilCorrect

variable {α : Type} [Fintype α] [DecidableEq α]

theorem mem_maybeStates_iff {V : Type} [Field V] [DecidableEq V] (p : α → α → V)
    (phi psi : Finset α) (s : α) :
    s ∈ maybeStates p phi psi ↔
      s ∈ performProbGreater0 p phi psi ∧ s ∉ performProb1 p phi psi := by
  rw [maybeStates, statesWithProbability0, statesWithProbability1]
  simp only [Finset.mem_sdiff, Finset.mem_union, Finset.mem_univ, true_and]
  tauto

theorem maybe_phi_not_psi {V : Type} [Field V] [DecidableEq V] (p : α → α → V)
    (phi psi : Finset α) {s : α} (hs : s ∈ maybeStates p phi psi) :
    s ∈ phi ∧ s ∉ psi := by
  rw [mem_maybeStates_iff] at hs
  have hpsi : s ∉ psi := fun hc => hs.2 (psi_subset_performProb1 p phi psi hc)
  rcases performProbGreater0_mem_phi_psi p phi psi hs.1 with h | h
  · exact absurd h hpsi
  · exact ⟨h, hpsi⟩

theorem maybe_disjoint_prob1 {V : Type} [Field V] [DecidableEq V] (p : α → α → V)
    (phi psi : Finset α) :
    Disjoint (maybeStates p phi psi) (statesWithProbability1 p phi psi) := by
  rw [Finset.disjoint_left]
  intro s hs hc
  rw [mem_maybeStates_iff] at hs
  exact hs.2 hc

theorem prob0_disjoint_prob1 {V : Type} [Field V] [DecidableEq V] (p : α → α → V)
    (phi psi : Finset α) :
    Disjoint (statesWithProbability0 p phi psi) (statesWithProbability1 p phi psi) := by
  rw [Finset.disjoint_left]
  intro s hs hc
  rw [statesWithProbability0, Finset.mem_sdiff] at hs
  exact hs.2 (performProb1_subset p phi psi hc)

/-- Every maybe state escapes: within the maybe submatrix, following positive
entries, a state with positive one-step probability into the probability-1
states is reachable. -/
theorem maybe_escapes {V : Type} [LinearOrderedField V] (p : α → α → V)
    (phi psi : Finset α) (hnn : ∀ s q, 0 ≤ p s q)
    (a : {s // s ∈ maybeStates p phi psi}) :
    ∃ k, escapes (untilSubmatrix p phi psi) (oneStepProbabilities p phi psi) ∅ k a := by
  have key : ∀ j t (htm : t ∈ maybeStates p phi psi), t ∈ (pg0Step p phi)^[j] psi →
      ∃ k, escapes (untilSubmatrix p phi psi) (oneStepProbabilities p phi psi) ∅ k
        ⟨t, htm⟩ := by
    intro j
    induction j with
    | zero =>
      intro t htm ht
      rw [Function.iterate_zero_apply] at ht
      exact absurd ((maybe_phi_not_psi p phi psi htm).2) (fun h => h ht)
    | succ j ih =>
      intro t htm ht
      rw [Function.iterate_succ_apply', mem_pg0Step] at ht
      rcases ht with ht | ⟨htphi, q, hq, hpq⟩
      · exact ih t htm ht
      · by_cases hq1 : q ∈ statesWithProbability1 p phi psi
        · -- a one-step transition into a probability-1 state: positive value
          refine ⟨0, ?_⟩
          rw [escapes]
          rw [oneStepProbabilities]
          have hterm : 0 < p t q := lt_of_le_of_ne (hnn t q) (Ne.symm hpq)
          calc (0 : V) < p t q := hterm
            _ ≤ ∑ u ∈ statesWithProbability1 p phi psi, p t u :=
              Finset.single_le_sum (fun u _ => hnn t u) hq1
        · by_cases hqm : q ∈ maybeStates p phi psi
          · by_cases hqt : q = t
            · exact ih t htm (hqt ▸ hq)
            · obtain ⟨k, hk⟩ := ih q hqm hq
              refine ⟨k + 1, ?_⟩
              rw [escapes]
              refine Or.inr ⟨⟨q, hqm⟩, Finset.not_mem_empty _, ?_, ?_, hk⟩
              · intro hc
                exact hqt (congrArg Subtype.val hc)
              · rw [untilSubmatrix]
                exact lt_of_le_of_ne (hnn t q) (Ne.symm hpq)
          · -- q is neither maybe nor probability-1, so it is a probability-0
            -- state; but it lies in a prob-greater-0 layer: contradiction
            exfalso
            have hqG : q ∈ performProbGreater0 p phi psi :=
              pg0_iterate_subset p phi psi j hq
            apply hqm
            rw [mem_maybeStates_iff]
            exact ⟨hqG, hq1⟩
  have haG : a.1 ∈ performProbGreater0 p phi psi :=
    ((mem_maybeStates_iff p phi psi a.1).mp a.2).1
  obtain ⟨k, hk⟩ := key (Fintype.card α) a.1 a.2 haG
  exact ⟨k, hk⟩

/-- The exact reachability probabilities solve the affine system handed to
the eliminator: on the maybe states, `probReach = oneStep + submatrix · probReach`. -/
theorem until_system_solved (p : α → α → ℝ) (phi psi : Finset α)
    (hnn : ∀ s q, 0 ≤ p s q) (hrow : ∀ s, ∑ q, p s q = 1)
    (a : {s // s ∈ maybeStates p phi psi}) :
    probReach p phi psi a.1 = oneStepProbabilities p phi psi a
      + ∑ b : {s // s ∈ maybeStates p phi psi},
          untilSubmatrix p phi psi a b * probReach p phi psi b.1 := by
  obtain ⟨haphi, hapsi⟩ := maybe_phi_not_psi p phi psi a.2
  rw [probReach_step p phi psi hnn hrow haphi hapsi]
  -- split the full sum along the prob0/prob1/maybe partition
  have hsub : statesWithProbability0 p phi psi ∪ statesWithProbability1 p phi psi
      ⊆ Finset.univ := Finset.subset_univ _
  have hsplit := Finset.sum_sdiff (f := fun q => p a.1 q * probReach p phi psi q) hsub
  have hmaybe_eq : Finset.univ \ (statesWithProbability0 p phi psi
      ∪ statesWithProbability1 p phi psi) = maybeStates p phi psi := rfl
  rw [hmaybe_eq] at hsplit
  have hunion : ∑ q ∈ statesWithProbability0 p phi psi ∪ statesWithProbability1 p phi psi,
        p a.1 q * probReach p phi psi q
      = (∑ q ∈ statesWithProbability0 p phi psi, p a.1 q * probReach p phi psi q)
        + ∑ q ∈ statesWithProbability1 p phi psi, p a.1 q * probReach p phi psi q :=
    Finset.sum_union (prob0_disjoint_prob1 p phi psi)
  have hzero : ∑ q ∈ statesWithProbability0 p phi psi,
      p a.1 q * probReach p phi psi q = 0 := by
    apply Finset.sum_eq_zero
    intro q hq
    rw [statesWithProbability0, Finset.mem_sdiff] at hq
    rw [probReach_zero_of_not_pg0 p phi psi hq.2, mul_zero]
  have hone : ∑ q ∈ statesWithProbability1 p phi psi, p a.1 q * probReach p phi psi q
      = oneStepProbabilities p phi psi a := by
    rw [oneStepProbabilities]
    apply Finset.sum_congr rfl
    intro q hq
    rw [statesWithProbability1] at hq
    rw [probReach_one_of_prob1 p phi psi hnn hrow hq, mul_one]
  have hmaybe : ∑ q ∈ maybeStates p phi psi, p a.1 q * probReach p phi psi q
      = ∑ b : {s // s ∈ maybeStates p phi psi},
          untilSubmatrix p phi psi a b * probReach p phi psi b.1 := by
    rw [← Finset.sum_coe_sort (maybeStates p phi psi)
      (fun q => p a.1 q * probReach p phi psi q)]
    rfl
  calc ∑ q, p a.1 q * probReach p phi psi q
      = (∑ q ∈ maybeStates p phi psi, p a.1 q * probReach p phi psi q)
        + ∑ q ∈ statesWithProbability0 p phi psi ∪ statesWithProbability1 p phi psi,
            p a.1 q * probReach p phi psi q := hsplit.symm
    _ = oneStepProbabilities p phi psi a
        + ∑ b : {s // s ∈ maybeStates p phi psi},
            untilSubmatrix p phi psi a b * probReach p phi psi b.1 := by
        rw [hunion, hzero, hone, hmaybe]
        ring

/-- The system handed to the eliminator is substochastic. -/
theorem until_system_substochastic (p : α → α → ℝ) (phi psi : Finset α)
    (hnn : ∀ s q, 0 ≤ p s q) (hrow : ∀ s, ∑ q, p s q = 1)
    (a : {s // s ∈ maybeStates p phi psi}) :
    (∑ b : {s // s ∈ maybeStates p phi psi}, untilSubmatrix p phi psi a b)
      + oneStepProbabilities p phi psi a ≤ 1 := by
  have h1 : ∑ b : {s // s ∈ maybeStates p phi psi}, untilSubmatrix p phi psi a b
      = ∑ q ∈ maybeStates p phi psi, p a.1 q := by
    rw [← Finset.sum_coe_sort (maybeStates p phi psi) (fun q => p a.1 q)]
    rfl
  rw [h1, oneStepProbabilities,
    ← Finset.sum_union (maybe_disjoint_prob1 p phi psi)]
  calc ∑ q ∈ maybeStates p phi psi ∪ statesWithProbability1 p phi psi, p a.1 q
      ≤ ∑ q, p a.1 q :=
        Finset.sum_le_sum_of_subset_of_nonneg (Finset.subset_univ _)
          (fun q _ _ => hnn a.1 q)
    _ = 1 := hrow a.1

/-- C1.  For every DTMC (nonnegative transition matrix with unit row sums),
`phi`-states and `psi`-states, after the prob0/prob1 partition and the
elimination of every maybe state (in any order the priority queue produces),
the value `computeUntilProbabilities` returns for every state — in
particular for each initial state — is the exact probability of reaching a
`psi`-state along `phi`-states; and after eliminating every maybe state all
rows of the flexible matrix are empty. -/
theorem computeUntilProbabilities_correct (p : α → α → ℝ) (phi psi : Finset α)
    (hnn : ∀ s q, 0 ≤ p s q) (hrow : ∀ s, ∑ q, p s q = 1)
    (order : List {s // s ∈ maybeStates p phi psi})
    (hord : ∀ a : {s // s ∈ maybeStates p phi psi}, a ∈ order)
    (hnodup : order.Nodup) :
    (∀ s0, computeUntilProbabilities p phi psi order s0 = probReach p phi psi s0) ∧
    (∀ a b, (performPrioritizedStateElimination ∅ false order
      (untilSubmatrix p phi psi) (oneStepProbabilities p phi psi)).1 a b = 0) := by
  have hmain := performElimFalse_invariants
    (fun a : {s // s ∈ maybeStates p phi psi} => probReach p phi psi a.1)
    order (untilSubmatrix p phi psi) (oneStepProbabilities p phi psi) ∅
    (fun a _ => Finset.not_mem_empty a) hnodup
    (fun a => until_system_solved p phi psi hnn hrow a)
    (fun a b => hnn a.1 b.1)
    (fun a => Finset.sum_nonneg (fun q _ => hnn a.1 q))
    (fun a => until_system_substochastic p phi psi hnn hrow a)
    (fun t q hq => absurd hq (Finset.not_mem_empty q))
    (fun t _ => maybe_escapes p phi psi hnn t)
  have hzero : ∀ a b, (performPrioritizedStateElimination ∅ false order
      (untilSubmatrix p phi psi) (oneStepProbabilities p phi psi)).1 a b = 0 := by
    intro a b
    apply hmain.2
    rw [Finset.empty_union, List.mem_toFinset]
    exact hord b
  have hvals : ∀ a, (performPrioritizedStateElimination ∅ false order
      (untilSubmatrix p phi psi) (oneStepProbabilities p phi psi)).2 a
      = probReach p phi psi a.1 := by
    intro a
    have h := hmain.1 a
    rw [Finset.sum_eq_zero (fun q _ => by rw [hzero a q, zero_mul]), add_zero] at h
    exact h.symm
  refine ⟨?_, hzero⟩
  intro s0
  rw [computeUntilProbabilities]
  by_cases hs : s0 ∈ maybeStates p phi psi
  · rw [dif_pos hs, hvals]
  · rw [dif_neg hs]
    by_cases h1 : s0 ∈ statesWithProbability1 p phi psi
    · rw [if_pos h1]
      exact (probReach_one_of_prob1 p phi psi hnn hrow h1).symm
    · rw [if_neg h1]
      have h0 : s0 ∉ performProbGreater0 p phi psi := by
        intro hc
        exact hs ((mem_maybeStates_iff p phi psi s0).mpr ⟨hc, h1⟩)
      exact (probReach_zero_of_not_pg0 p phi psi h0).symm

theorem maybeStates_pU : maybeStates pU phiU psiU = {0} := by
  have h1 : pg0Step pU phiU psiU = {0, 1} := by
    rw [pg0Step]
    ext t
    fin_cases t <;> simp [pU, phiU, psiU]
  have h2 : pg0Step pU phiU {0, 1} = {0, 1} := by
    rw [pg0Step]
    ext t
    fin_cases t <;> simp [pU, phiU]
  have hc : Fintype.card (Fin 3) = 2 + 1 := rfl
  have hG : performProbGreater0 pU phiU psiU = {0, 1} := by
    rw [performProbGreater0, hc, Function.iterate_succ_apply, h1,
      Function.iterate_fixed h2]
  have p1a : prob1Step pU psiU ({0, 1} : Finset (Fin 3)) {0, 1} = {1} := by
    rw [prob1Step]
    ext t
    fin_cases t <;> simp [pU, psiU, Fin.forall_fin_succ]
  have p1b : prob1Step pU psiU ({0, 1} : Finset (Fin 3)) {1} = {1} := by
    rw [prob1Step]
    ext t
    fin_cases t <;> simp [pU, psiU, Fin.forall_fin_succ]
  have h1eq : performProb1 pU phiU psiU = {1} := by
    rw [performProb1, hG, hc, Function.iterate_succ_apply, p1a,
      Function.iterate_fixed p1b]
  rw [maybeStates, statesWithProbability0, statesWithProbability1, hG, h1eq]
  decide

theorem pU_nonneg : ∀ s q, 0 ≤ pU s q := by
  intro s q
  fin_cases s <;> fin_cases q <;> simp [pU] <;> norm_num

theorem pU_rowsum : ∀ s, ∑ q, pU s q = 1 := by
  intro s
  fin_cases s <;> simp [pU, Fin.sum_univ_succ] <;> norm_num

theorem orderU_cover : ∀ a : {s // s ∈ maybeStates pU phiU psiU}, a ∈ orderU := by
  intro a
  obtain ⟨v, hv⟩ := a
  have hv0 : v ∈ ({0} : Finset (Fin 3)) := maybeStates_pU ▸ hv
  rw [Finset.mem_singleton] at hv0
  simp only [orderU, List.mem_singleton]
  exact Subtype.ext hv0

theorem orderU_nodup : orderU.Nodup := by simp [orderU]

/-- Witness for C1: the concrete three-state chain, whose single maybe state
is state 0; the theorem applies with the one-element elimination order. -/
theorem computeUntilProbabilities_correct_witness :
    computeUntilProbabilities pU phiU psiU orderU 0 = probReach pU phiU psiU 0 :=
  (computeUntilProbabilities_correct pU phiU psiU pU_nonneg pU_rowsum orderU
    orderU_cover orderU_nodup).1 0

end UntilCorrect

/-! ### BFS distances and reachability closure -/

section Distances

variable {α : Type} [Fintype α] [DecidableEq α] {V : Type} [Zero V] [DecidableEq V]

theorem reachStep_inflationary (p : α → α → V) (allowed target : Finset α)
    (R : Finset α) : R ⊆ reachStep p allowed target R :=
  Finset.subset_union_left

theorem mem_reachStep_of_edge (p : α → α → V) (R : Finset α) {s q : α}
    (hs : s ∈ R) (hpq : p s q ≠ 0) :
    q ∈ reachStep p Finset.univ ∅ R := by
  rw [reachStep, Finset.mem_union, Finset.mem_filter]
  exact Or.inr ⟨Finset.mem_univ q,
    ⟨Or.inl (Finset.mem_univ q), s, hs, Finset.not_mem_empty s, hpq⟩⟩

/-- The distance of an initial state is 0. -/
theorem getDistances_initial (p : α → α → V) (initial : Finset α) {a : α}
    (ha : a ∈ initial) : getDistances p initial a = 0 := by
  rw [getDistances]
  have h0 : 0 ∈ (Finset.range (Fintype.card α + 1)).filter
      (fun k => a ∈ (reachStep p Finset.univ ∅)^[k] initial) := by
    rw [Finset.mem_filter, Finset.mem_range]
    exact ⟨by omega, ha⟩
  have hle := Finset.min_le h0
  rcases hmin : (((Finset.range (Fintype.card α + 1)).filter
      (fun k => a ∈ (reachStep p Finset.univ ∅)^[k] initial)).min) with _ | v
  · rfl
  · rw [hmin] at hle
    have hv : v ≤ 0 := WithTop.coe_le_coe.mp hle
    exact Nat.le_zero.mp hv

/-- A reachable state lies in the BFS layer of its distance. -/
theorem getDistances_layer (p : α → α → V) (initial : Finset α) {a : α}
    (ha : a ∈ getReachableStates p initial Finset.univ ∅) :
    a ∈ (reachStep p Finset.univ ∅)^[getDistances p initial a] initial ∧
      getDistances p initial a ≤ Fintype.card α := by
  have hcard : Fintype.card α ∈ (Finset.range (Fintype.card α + 1)).filter
      (fun k => a ∈ (reachStep p Finset.univ ∅)^[k] initial) := by
    rw [Finset.mem_filter, Finset.mem_range]
    exact ⟨by omega, ha⟩
  rcases hmin : (((Finset.range (Fintype.card α + 1)).filter
      (fun k => a ∈ (reachStep p Finset.univ ∅)^[k] initial)).min) with _ | v
  · exact absurd (Finset.min_eq_top.mp hmin ▸ hcard) (Finset.not_mem_empty _)
  · have hv := Finset.mem_of_min hmin
    rw [Finset.mem_filter, Finset.mem_range] at hv
    rw [getDistances, hmin]
    exact ⟨hv.2, Nat.lt_succ_iff.mp hv.1⟩

/-- Successor closure and the BFS triangle inequality: a nonzero edge from a
reachable state leads to a reachable state at distance at most one more. -/
theorem getDistances_succ (p : α → α → V) (initial : Finset α) {a q : α}
    (ha : a ∈ getReachableStates p initial Finset.univ ∅) (hpq : p a q ≠ 0) :
    q ∈ getReachableStates p initial Finset.univ ∅ ∧
      getDistances p initial q ≤ getDistances p initial a + 1 := by
  obtain ⟨hlayer, hle⟩ := getDistances_layer p initial ha
  set m := getDistances p initial a with hm
  have hq : q ∈ (reachStep p Finset.univ ∅)^[m + 1] initial := by
    rw [Function.iterate_succ_apply']
    exact mem_reachStep_of_edge p _ hlayer hpq
  have hqR : q ∈ getReachableStates p initial Finset.univ ∅ := by
    rcases Nat.lt_or_ge m (Fintype.card α) with hlt | hge
    · rw [getReachableStates]
      exact iterate_subset_of_inflationary _
        (reachStep_inflationary p Finset.univ ∅) initial (by omega) hq
    · have hmeq : m = Fintype.card α := by omega
      rw [hmeq, Function.iterate_succ_apply',
        iterate_fixed_of_inflationary _
          (reachStep_inflationary p Finset.univ ∅) initial] at hq
      rw [getReachableStates]
      exact hq
  refine ⟨hqR, ?_⟩
  rcases Nat.lt_or_ge m (Fintype.card α) with hlt | hge
  · have hmem : m + 1 ∈ (Finset.range (Fintype.card α + 1)).filter
        (fun k => q ∈ (reachStep p Finset.univ ∅)^[k] initial) := by
      rw [Finset.mem_filter, Finset.mem_range]
      exact ⟨by omega, hq⟩
    have hle2 := Finset.min_le hmem
    rcases hmin : (((Finset.range (Fintype.card α + 1)).filter
        (fun k => q ∈ (reachStep p Finset.univ ∅)^[k] initial)).min) with _ | v
    · exact absurd (Finset.min_eq_top.mp hmin ▸ hmem) (Finset.not_mem_empty _)
    · rw [hmin] at hle2
      rw [getDistances, hmin]
      exact WithTop.coe_le_coe.mp hle2
  · obtain ⟨_, hle3⟩ := getDistances_layer p initial hqR
    omega

end Distances

/-! ### The zeroing optimization of the bounded-until loop is sound (C5) -/

section ZeroRun

variable {σ : Type} [Fintype σ] [DecidableEq σ]

/-- The loop invariant of the distance-based zeroing: after `t` rounds, the
rows and right-hand-side entries of states whose distance leaves them within
the remaining budget are untouched, and on reachable states within budget the
sub-result agrees with the run without zeroing. -/
theorem boundedZeroRun_agrees (A : σ → σ → ℝ) (b : σ → ℝ) (I : Finset σ)
    (timeBound : ℕ) :
    ∀ t,
      (∀ a q, getDistances A I a + t ≤ timeBound + 1 →
        (boundedZeroRun A b (getDistances A I) timeBound t).1 a q = A a q) ∧
      (∀ a, getDistances A I a + t ≤ timeBound + 1 →
        (boundedZeroRun A b (getDistances A I) timeBound t).2.1 a = b a) ∧
      (∀ a, a ∈ getReachableStates A I Finset.univ ∅ →
        getDistances A I a + t ≤ timeBound + 1 →
        (boundedZeroRun A b (getDistances A I) timeBound t).2.2 a
          = (mulAdd A b)^[t] b a) := by
  intro t
  induction t with
  | zero => exact ⟨fun a q _ => rfl, fun a _ => rfl, fun a _ _ => rfl⟩
  | succ t ih =>
    obtain ⟨ihA, ihb, ihx⟩ := ih
    have hnear : ∀ a : σ, getDistances A I a + (t + 1) ≤ timeBound + 1 →
        ¬(timeBound - t < getDistances A I a) := by
      intro a ha
      omega
    refine ⟨?_, ?_, ?_⟩
    · intro a q ha
      show (if timeBound - t < getDistances A I a then 0
        else (boundedZeroRun A b (getDistances A I) timeBound t).1 a q) = A a q
      rw [if_neg (hnear a ha)]
      exact ihA a q (by omega)
    · intro a ha
      show (if timeBound - t < getDistances A I a then 0
        else (boundedZeroRun A b (getDistances A I) timeBound t).2.1 a) = b a
      rw [if_neg (hnear a ha)]
      exact ihb a (by omega)
    · intro a haR ha
      show mulAdd (boundedZeroRun A b (getDistances A I) timeBound t).1
        (boundedZeroRun A b (getDistances A I) timeBound t).2.1
        (boundedZeroRun A b (getDistances A I) timeBound t).2.2 a
          = (mulAdd A b)^[t + 1] b a
      rw [Function.iterate_succ_apply', mulAdd, mulAdd]
      rw [ihb a (by omega)]
      congr 1
      apply Finset.sum_congr rfl
      intro q _
      rw [ihA a q (by omega)]
      by_cases hAq : A a q = 0
      · rw [hAq, zero_mul, zero_mul]
      · obtain ⟨hqR, hqd⟩ := getDistances_succ A I haR hAq
        rw [ihx q hqR (by omega)]

/-- On initial states the full zeroed run agrees with the plain run. -/
theorem boundedZeroRun_initial_eq (A : σ → σ → ℝ) (b : σ → ℝ) (I : Finset σ)
    (timeBound : ℕ) (a : σ) (ha : a ∈ I) :
    (boundedZeroRun A b (getDistances A I) timeBound timeBound).2.2 a
      = (mulAdd A b)^[timeBound] b a := by
  have haR : a ∈ getReachableStates A I Finset.univ ∅ := by
    rw [getReachableStates]
    exact iterate_subset_of_inflationary _
      (reachStep_inflationary A Finset.univ ∅) I (Nat.zero_le _) ha
  exact (boundedZeroRun_agrees A b I timeBound timeBound).2.2 a haR
    (by rw [getDistances_initial A I ha]; omega)

end ZeroRun

/-! ### The bounded-until iteration computes the step-bounded probabilities (C5) -/

section BoundedCorrect

variable {α : Type} [Fintype α] [DecidableEq α]

theorem probReachWithin_psi_one (p : α → α → ℝ) (phi psi : Finset α) {q : α}
    (hq : q ∈ psi) (m : ℕ) : probReachWithin p phi psi (m + 1) q = 1 := by
  rw [probReachWithin, if_pos hq]

theorem probReachWithin_one_eq (p : α → α → ℝ) (phi psi : Finset α) (q : α) :
    probReachWithin p phi psi 1 q = if q ∈ psi then 1 else 0 := by
  rw [probReachWithin]
  split_ifs with h1 h2
  · rfl
  · simp [probReachWithin]
  · rfl

/-- A state outside the `j`-th backward-BFS layer has zero probability of
reaching `psi` within `j` steps. -/
theorem probReachWithin_zero_of_not_layer (p : α → α → ℝ) (phi psi : Finset α) :
    ∀ j, ∀ s, s ∉ (pg0Step p phi)^[j] psi →
      probReachWithin p phi psi (j + 1) s = 0 := by
  intro j
  induction j with
  | zero =>
    intro s hs
    rw [Function.iterate_zero_apply] at hs
    rw [probReachWithin_one_eq, if_neg hs]
  | succ j ih =>
    intro s hs
    have hpsi : s ∉ psi := fun hc => hs
      (iterate_subset_of_inflationary _ (pg0Step_inflationary p phi) psi
        (Nat.zero_le _) hc)
    rw [probReachWithin, if_neg hpsi]
    by_cases hphi : s ∈ phi
    · rw [if_pos hphi]
      apply Finset.sum_eq_zero
      intro q _
      by_cases hpq : p s q = 0
      · rw [hpq, zero_mul]
      · have hq : q ∉ (pg0Step p phi)^[j] psi := by
          intro hc
          apply hs
          rw [Function.iterate_succ_apply', mem_pg0Step]
          exact Or.inr ⟨hphi, q, hc, hpq⟩
        rw [ih q hq, mul_zero]
    · rw [if_neg hphi]

/-- The bounded-until iteration on the maybe submatrix: after `j`
multiply-and-add rounds starting from the one-step vector, the sub-result of
a maybe state is its probability of reaching `psi` within `j + 1` steps. -/
theorem bounded_iter_eq (p : α → α → ℝ) (phi psi : Finset α) (k : ℕ) :
    ∀ j, j + 1 ≤ k → ∀ a : {s // s ∈ boundedMaybeStates p phi psi k},
      (mulAdd (boundedSubmatrix p phi psi k) (boundedOneStep p phi psi k))^[j]
        (boundedOneStep p phi psi k) a
        = probReachWithin p phi psi (j + 2) a.1 := by
  have hmem : ∀ s, s ∈ boundedMaybeStates p phi psi k → s ∈ phi ∧ s ∉ psi := by
    intro s hs
    rw [boundedMaybeStates, Finset.mem_sdiff] at hs
    rcases performProbGreater0_mem_phi_psi p phi psi hs.1 with h | h
    · exact absurd h hs.2
    · exact ⟨h, hs.2⟩
  intro j
  induction j with
  | zero =>
    intro _ a
    rw [Function.iterate_zero_apply]
    obtain ⟨haphi, hapsi⟩ := hmem a.1 a.2
    rw [show (0 : ℕ) + 2 = 1 + 1 from rfl, probReachWithin, if_neg hapsi, if_pos haphi]
    rw [boundedOneStep]
    have hterm : ∀ q : α, p a.1 q * probReachWithin p phi psi 1 q
        = if q ∈ psi then p a.1 q else 0 := by
      intro q
      rw [probReachWithin_one_eq]
      split_ifs
      · rw [mul_one]
      · rw [mul_zero]
    calc ∑ q ∈ psi, p a.1 q
        = ∑ q ∈ Finset.univ ∩ psi, p a.1 q := by rw [Finset.univ_inter]
      _ = ∑ q, if q ∈ psi then p a.1 q else 0 := (Finset.sum_ite_mem _ _ _).symm
      _ = ∑ q, p a.1 q * probReachWithin p phi psi 1 q := by
          apply Finset.sum_congr rfl
          intro q _
          rw [hterm q]
  | succ j ih =>
    intro hjk a
    obtain ⟨haphi, hapsi⟩ := hmem a.1 a.2
    rw [Function.iterate_succ_apply', mulAdd]
    rw [show j + 1 + 2 = (j + 2) + 1 from rfl, probReachWithin, if_neg hapsi,
      if_pos haphi]
    have hsplit : ∑ q, p a.1 q * probReachWithin p phi psi (j + 2) q
        = (∑ q ∈ boundedMaybeStates p phi psi k,
            p a.1 q * probReachWithin p phi psi (j + 2) q)
          + ∑ q ∈ psi, p a.1 q := by
      have hsub : boundedMaybeStates p phi psi k ⊆ Finset.univ := Finset.subset_univ _
      have hpsisub : psi ⊆ Finset.univ \ boundedMaybeStates p phi psi k := by
        intro q hq
        rw [Finset.mem_sdiff, boundedMaybeStates, Finset.mem_sdiff]
        exact ⟨Finset.mem_univ q, fun hc => hc.2 hq⟩
      have hrest : ∀ q ∈ (Finset.univ \ boundedMaybeStates p phi psi k) \ psi,
          p a.1 q * probReachWithin p phi psi (j + 2) q = 0 := by
        intro q hq
        rw [Finset.mem_sdiff, Finset.mem_sdiff] at hq
        obtain ⟨⟨_, hqG⟩, hqpsi⟩ := hq
        have hqlayer : q ∉ (pg0Step p phi)^[j + 1] psi := by
          intro hc
          apply hqG
          rw [boundedMaybeStates, Finset.mem_sdiff, performProbGreater0Bounded]
          exact ⟨iterate_subset_of_inflationary _
            (pg0Step_inflationary p phi) psi (by omega) hc, hqpsi⟩
        rw [probReachWithin_zero_of_not_layer p phi psi (j + 1) q hqlayer, mul_zero]
      have hleft : ∑ q ∈ Finset.univ \ boundedMaybeStates p phi psi k,
          p a.1 q * probReachWithin p phi psi (j + 2) q = ∑ q ∈ psi, p a.1 q := by
        rw [← Finset.sum_sdiff hpsisub, Finset.sum_eq_zero hrest, zero_add]
        apply Finset.sum_congr rfl
        intro q hq
        rw [probReachWithin_psi_one p phi psi hq (j + 1), mul_one]
      calc ∑ q, p a.1 q * probReachWithin p phi psi (j + 2) q
          = (∑ q ∈ Finset.univ \ boundedMaybeStates p phi psi k,
              p a.1 q * probReachWithin p phi psi (j + 2) q)
            + ∑ q ∈ boundedMaybeStates p phi psi k,
                p a.1 q * probReachWithin p phi psi (j + 2) q :=
            (Finset.sum_sdiff hsub).symm
        _ = (∑ q ∈ psi, p a.1 q)
            + ∑ q ∈ boundedMaybeStates p phi psi k,
                p a.1 q * probReachWithin p phi psi (j + 2) q := by rw [hleft]
        _ = (∑ q ∈ boundedMaybeStates p phi psi k,
              p a.1 q * probReachWithin p phi psi (j + 2) q)
            + ∑ q ∈ psi, p a.1 q := add_comm _ _
    rw [hsplit]
    congr 1
    rw [← Finset.sum_coe_sort (boundedMaybeStates p phi psi k)
      (fun q => p a.1 q * probReachWithin p phi psi (j + 2) q)]
    apply Finset.sum_congr rfl
    intro q _
    rw [boundedSubmatrix, ih (by omega) q]

set_option maxHeartbeats 1000000 in
/-- C5.  For every DTMC and step bound `k ≥ 1`: (1) the bounded-until driver
computes, without any state elimination, for every state its exact
probability of reaching a `psi`-state within `k` steps via `phi`-states;
(2) the sub-result equals `k` multiply-and-add rounds of the maybe-submatrix
with the one-step-to-`psi` right-hand side (the driver initializes with the
right-hand side, which accounts for the first of the `k` rounds, and
decrements the bound); and (3) in initial-states-only mode, the run with the
distance-based zeroing of rows and right-hand-side entries agrees on every
initial state with the run without zeroing. -/
theorem computeBoundedUntilProbabilities_correct (p : α → α → ℝ)
    (phi psi initial : Finset α) (k : ℕ) (hk : 1 ≤ k) :
    (∀ s, computeBoundedUntilProbabilities p phi psi k s
      = probReachWithin p phi psi (k + 1) s) ∧
    ((mulAdd (boundedSubmatrix p phi psi k) (boundedOneStep p phi psi k))^[k - 1]
        (boundedOneStep p phi psi k)
      = (mulAdd (boundedSubmatrix p phi psi k) (boundedOneStep p phi psi k))^[k]
          (fun _ => 0)) ∧
    (∀ a : {s // s ∈ boundedMaybeStatesInit p phi psi initial k}, a.1 ∈ initial →
      (boundedZeroRun (boundedSubmatrixInit p phi psi initial k)
        (boundedOneStepInit p phi psi initial k)
        (boundedDistances p phi psi initial k) (k - 1) (k - 1)).2.2 a
        = (mulAdd (boundedSubmatrixInit p phi psi initial k)
            (boundedOneStepInit p phi psi initial k))^[k - 1]
            (boundedOneStepInit p phi psi initial k) a) := by
  refine ⟨?_, ?_, ?_⟩
  · intro s
    rw [computeBoundedUntilProbabilities]
    by_cases hpsi : s ∈ psi
    · rw [if_pos hpsi, probReachWithin_psi_one p phi psi hpsi k]
    · rw [if_neg hpsi]
      by_cases hs : s ∈ boundedMaybeStates p phi psi k
      · rw [dif_pos hs]
        have heq := bounded_iter_eq p phi psi k (k - 1) (by omega) ⟨s, hs⟩
        rw [heq]
        congr 1
        omega
      · rw [dif_neg hs]
        have hlayer : s ∉ (pg0Step p phi)^[k] psi := by
          intro hc
          apply hs
          rw [boundedMaybeStates, performProbGreater0Bounded, Finset.mem_sdiff]
          exact ⟨hc, hpsi⟩
        exact (probReachWithin_zero_of_not_layer p phi psi k s hlayer).symm
  · have hfz : mulAdd (boundedSubmatrix p phi psi k) (boundedOneStep p phi psi k)
        (fun _ => 0) = boundedOneStep p phi psi k := by
      funext a
      rw [mulAdd]
      simp
    obtain ⟨m, rfl⟩ : ∃ m, k = m + 1 := ⟨k - 1, by omega⟩
    simp only [Nat.add_sub_cancel]
    rw [Function.iterate_succ_apply, hfz]
  · intro a ha
    have hmem : a ∈ boundedSubInitial p phi psi initial k := by
      rw [boundedSubInitial, Finset.mem_filter]
      exact ⟨Finset.mem_univ a, ha⟩
    exact boundedZeroRun_initial_eq (boundedSubmatrixInit p phi psi initial k)
      (boundedOneStepInit p phi psi initial k)
      (boundedSubInitial p phi psi initial k) (k - 1) a hmem

/-- Witness for C5: the concrete three-state chain with step bound 2. -/
theorem computeBoundedUntilProbabilities_correct_witness :
    computeBoundedUntilProbabilities pU phiU psiU 2 0
      = probReachWithin pU phiU psiU 3 0 :=
  (computeBoundedUntilProbabilities_correct pU phiU psiU initialU 2 (by norm_num)).1 0

end BoundedCorrect

/-! ### The infinity states of the reward driver (C7) -/

section RewardCorrect

variable {α : Type} [Fintype α] [DecidableEq α]

/-- C7.  In the reachability-reward computation the infinity states are
exactly the states that do not reach the target with probability one (the
complement of `perform_prob_1` over all states, which semantically is
`{s | probReach ≠ 1}`); every infinity state is assigned `+∞` in the result
vector, and every target state is assigned zero, whatever the maybe-state
sub-results are. -/
theorem computeReachabilityRewards_infinity (p : α → α → ℝ) (target : Finset α)
    (hnn : ∀ s q, 0 ≤ p s q) (hrow : ∀ s, ∑ q, p s q = 1)
    (subresult : {s // s ∈ rewardMaybeStates p target} → ℝ) :
    (rewardInfinityStates p target
      = Finset.univ.filter (fun s => probReach p Finset.univ target s ≠ 1)) ∧
    (∀ s ∈ rewardInfinityStates p target,
      computeReachabilityRewards p target subresult s = ⊤) ∧
    (∀ s ∈ target, computeReachabilityRewards p target subresult s = 0) := by
  refine ⟨?_, ?_, ?_⟩
  · ext s
    rw [rewardInfinityStates, Finset.mem_sdiff, Finset.mem_filter]
    constructor
    · intro hs
      exact ⟨Finset.mem_univ s,
        ne_of_lt (probReach_lt_one_of_not_prob1 p Finset.univ target hnn hrow hs.2)⟩
    · intro hs
      refine ⟨Finset.mem_univ s, fun hc => hs.2 ?_⟩
      exact probReach_one_of_prob1 p Finset.univ target hnn hrow hc
  · intro s hs
    have hst : s ∉ target := by
      intro hc
      rw [rewardInfinityStates, Finset.mem_sdiff] at hs
      exact hs.2 (psi_subset_performProb1 p Finset.univ target hc)
    rw [computeReachabilityRewards, if_neg hst, if_pos hs]
  · intro s hs
    rw [computeReachabilityRewards, if_pos hs]

/-- Witness for C7: the concrete three-state chain with target `{1}`; state 1
is a target (reward 0) and state 2 cannot reach the target (reward `+∞`). -/
theorem computeReachabilityRewards_infinity_witness :
    computeReachabilityRewards pU psiU (fun _ => 0) 1 = 0 :=
  (computeReachabilityRewards_infinity pU psiU pU_nonneg pU_rowsum
    (fun _ => 0)).2.2 1 (by decide)

end RewardCorrect

/-! ### The conditional-probability front branches (C3) -/

section ConditionalCorrect

variable {α : Type} [Fintype α] [DecidableEq α]

/-- `performProbGreater0` is monotone in its target argument. -/
theorem performProbGreater0_mono_psi {V : Type} [Zero V] [DecidableEq V]
    (p : α → α → V) (phi : Finset α) {S T : Finset α} (hST : S ⊆ T) :
    performProbGreater0 p phi S ⊆ performProbGreater0 p phi T := by
  rw [performProbGreater0, performProbGreater0]
  have key : ∀ j, (pg0Step p phi)^[j] S ⊆ (pg0Step p phi)^[j] T := by
    intro j
    induction j with
    | zero => exact hST
    | succ j ih =>
      rw [Function.iterate_succ_apply', Function.iterate_succ_apply']
      exact pg0Step_monotone p phi ih
  exact key (Fintype.card α)

theorem mem_reachStep_univ {V : Type} [Zero V] [DecidableEq V] (p : α → α → V)
    (target : Finset α) (R : Finset α) {s q : α} (hs : s ∈ R) (hst : s ∉ target)
    (hpq : p s q ≠ 0) : q ∈ reachStep p Finset.univ target R := by
  rw [reachStep, Finset.mem_union, Finset.mem_filter]
  exact Or.inr ⟨Finset.mem_univ q, ⟨Or.inl (Finset.mem_univ q), s, hs, hst, hpq⟩⟩

/-- The reachable set is closed under nonzero edges from non-target members. -/
theorem getReachableStates_closed {V : Type} [Zero V] [DecidableEq V]
    (p : α → α → V) (initial target : Finset α) {s q : α}
    (hs : s ∈ getReachableStates p initial Finset.univ target) (hst : s ∉ target)
    (hpq : p s q ≠ 0) : q ∈ getReachableStates p initial Finset.univ target := by
  rw [getReachableStates,
    ← iterate_fixed_of_inflationary _ (reachStep_inflationary p Finset.univ target)
      initial]
  exact mem_reachStep_univ p target _ hs hst hpq

theorem initial_subset_getReachableStates {V : Type} [Zero V] [DecidableEq V]
    (p : α → α → V) (initial target : Finset α) :
    initial ⊆ getReachableStates p initial Finset.univ target := by
  rw [getReachableStates]
  exact iterate_subset_of_inflationary _
    (reachStep_inflationary p Finset.univ target) initial (Nat.zero_le _)

/-- Path lifting for the restricted condition targets: on states reachable
from the initial states without passing a `psi`-state, the step-bounded
probability of reaching `psi` is at most the probability of reaching the
restricted targets (every path from there meets its first `psi`-state inside
the restricted set). -/
theorem conditional_restrict_le (p : α → α → ℝ) (initial psiStates : Finset α)
    (hnn : ∀ s q, 0 ≤ p s q) (hrow : ∀ s, ∑ q, p s q = 1) :
    ∀ k s, s ∈ getReachableStates p initial Finset.univ psiStates →
      probReachWithin p Finset.univ psiStates k s
        ≤ probReach p Finset.univ (conditionalPsiStates p initial psiStates) s := by
  intro k
  induction k with
  | zero =>
    intro s _
    exact probReach_nonneg p Finset.univ _ hnn hrow s
  | succ k ih =>
    intro s hsR
    by_cases hpsi : s ∈ psiStates
    · have hs' : s ∈ conditionalPsiStates p initial psiStates := by
        rw [conditionalPsiStates, Finset.mem_inter]
        exact ⟨hsR, hpsi⟩
      rw [probReach_psi p Finset.univ _ hnn hrow hs']
      exact probReachWithin_le_one p Finset.univ psiStates hnn hrow (k + 1) s
    · have hpsi' : s ∉ conditionalPsiStates p initial psiStates := by
        rw [conditionalPsiStates, Finset.mem_inter]
        exact fun hc => hpsi hc.2
      rw [probReachWithin, if_neg hpsi, if_pos (Finset.mem_univ s)]
      rw [probReach_step p Finset.univ _ hnn hrow (Finset.mem_univ s) hpsi']
      apply Finset.sum_le_sum
      intro q _
      by_cases hpq : p s q = 0
      · rw [hpq, zero_mul, zero_mul]
      · have hqR := getReachableStates_closed p initial psiStates hsR hpsi hpq
        exact mul_le_mul_of_nonneg_left (ih q hqR) (hnn s q)

/-- C3.  For the conditional probability with a single initial state: if the
conditioning event has probability zero from the initial state, the driver
fails with the typed `InvalidProperty` fault; if it has probability one, the
driver returns the unconditional until-probability vector of the ordinary
reachability routine (`computeUntilProbabilities` on `true U objective`). -/
theorem computeConditionalProbabilities_branches (p : α → α → ℝ)
    (phiStates psiStates : Finset α) (s0 : α)
    (hnn : ∀ s q, 0 ≤ p s q) (hrow : ∀ s, ∑ q, p s q = 1)
    (orderObj : List {s // s ∈ maybeStates p Finset.univ phiStates})
    (rest : α → ℝ) :
    (probReach p Finset.univ psiStates s0 = 0 →
      computeConditionalProbabilities p phiStates psiStates {s0} orderObj rest
        = Except.error StormError.invalidProperty) ∧
    (probReach p Finset.univ psiStates s0 = 1 →
      computeConditionalProbabilities p phiStates psiStates {s0} orderObj rest
        = Except.ok (computeUntilProbabilities p Finset.univ phiStates orderObj)) := by
  constructor
  · intro h0
    have hguard : ¬ ({s0} : Finset α) ⊆ performProbGreater0 p Finset.univ
        (conditionalPsiStates p {s0} psiStates) := by
      intro hc
      have hs0 : s0 ∈ performProbGreater0 p Finset.univ
          (conditionalPsiStates p {s0} psiStates) :=
        hc (Finset.mem_singleton_self s0)
      have hs0' : s0 ∈ performProbGreater0 p Finset.univ psiStates :=
        performProbGreater0_mono_psi p Finset.univ
          (Finset.inter_subset_right) hs0
      have := probReach_pos_of_pg0 p Finset.univ psiStates hnn hrow hs0'
      linarith
    rw [computeConditionalProbabilities, if_neg hguard]
  · intro h1
    have hs0R : s0 ∈ getReachableStates p {s0} Finset.univ psiStates :=
      initial_subset_getReachableStates p {s0} psiStates
        (Finset.mem_singleton_self s0)
    have hle : probReach p Finset.univ psiStates s0
        ≤ probReach p Finset.univ (conditionalPsiStates p {s0} psiStates) s0 := by
      rw [probReach]
      exact ciSup_le (fun k => conditional_restrict_le p {s0} psiStates hnn hrow k s0 hs0R)
    have heq : probReach p Finset.univ (conditionalPsiStates p {s0} psiStates) s0 = 1 := by
      apply le_antisymm (probReach_le_one p Finset.univ _ hnn hrow s0)
      rw [← h1]
      exact hle
    have hg : s0 ∈ performProbGreater0 p Finset.univ
        (conditionalPsiStates p {s0} psiStates) := by
      by_contra hc
      rw [probReach_zero_of_not_pg0 p Finset.univ _ hc] at heq
      norm_num at heq
    have hp1 : s0 ∈ performProb1 p Finset.univ
        (conditionalPsiStates p {s0} psiStates) := by
      by_contra hc
      have := probReach_lt_one_of_not_prob1 p Finset.univ _ hnn hrow hc
      rw [heq] at this
      exact lt_irrefl 1 this
    rw [computeConditionalProbabilities,
      if_pos (Finset.singleton_subset_iff.mpr hg),
      if_pos (Finset.singleton_subset_iff.mpr hp1)]

/-- Witness for C3: from state 1 of the concrete chain the condition `F {1}`
holds with probability one, so the driver falls back to the unconditional
routine (with an empty elimination order, as `F univ` has no maybe states). -/
theorem computeConditionalProbabilities_branches_witness :
    computeConditionalProbabilities pU phiU psiU {1} [] (fun _ => 0)
      = Except.ok (computeUntilProbabilities pU Finset.univ phiU []) :=
  (computeConditionalProbabilities_branches pU phiU psiU 1 pU_nonneg pU_rowsum
    [] (fun _ => 0)).2
    (probReach_psi pU Finset.univ psiU pU_nonneg pU_rowsum (by decide))

end ConditionalCorrect

/-! ### The long-run driver (C8): concrete BSCC instance -/

section LongRunCorrect

theorem reachL_fix_univ :
    reachStep pL Finset.univ ∅ (Finset.univ : Finset (Fin 7)) = Finset.univ := by
  rw [reachStep]
  ext t
  fin_cases t <;> simp [pL]

theorem reachL_s1 : reachStep pL Finset.univ ∅ ({0} : Finset (Fin 7)) = {0, 1, 4} := by
  rw [reachStep]
  ext t
  fin_cases t <;> simp [pL]

theorem reachL_s2 : reachStep pL Finset.univ ∅ ({0, 1, 4} : Finset (Fin 7))
    = Finset.univ := by
  rw [reachStep]
  ext t
  fin_cases t <;> simp [pL]

theorem reachL_univ0 : getReachableStates pL {0} Finset.univ ∅ = Finset.univ := by
  have hc : Fintype.card (Fin 7) = 5 + 1 + 1 := rfl
  rw [getReachableStates, hc, Function.iterate_succ_apply, reachL_s1,
    Function.iterate_succ_apply, reachL_s2, Function.iterate_fixed reachL_fix_univ]

theorem reachL_c1 : reachStep pL Finset.univ ∅ ({1} : Finset (Fin 7)) = {1, 2, 3} := by
  rw [reachStep]
  ext t
  fin_cases t <;> simp [pL]

theorem reachL_c2 : reachStep pL Finset.univ ∅ ({2} : Finset (Fin 7)) = {1, 2, 3} := by
  rw [reachStep]
  ext t
  fin_cases t <;> simp [pL]

theorem reachL_c3 : reachStep pL Finset.univ ∅ ({3} : Finset (Fin 7)) = {1, 2, 3} := by
  rw [reachStep]
  ext t
  fin_cases t <;> simp [pL]

theorem reachL_cfix : reachStep pL Finset.univ ∅ ({1, 2, 3} : Finset (Fin 7))
    = {1, 2, 3} := by
  rw [reachStep]
  ext t
  fin_cases t <;> simp [pL]

theorem reachL_from1 : getReachableStates pL {1} Finset.univ ∅ = {1, 2, 3} := by
  have hc : Fintype.card (Fin 7) = 6 + 1 := rfl
  rw [getReachableStates, hc, Function.iterate_succ_apply, reachL_c1,
    Function.iterate_fixed reachL_cfix]

theorem reachL_from2 : getReachableStates pL {2} Finset.univ ∅ = {1, 2, 3} := by
  have hc : Fintype.card (Fin 7) = 6 + 1 := rfl
  rw [getReachableStates, hc, Function.iterate_succ_apply, reachL_c2,
    Function.iterate_fixed reachL_cfix]

theorem reachL_from3 : getReachableStates pL {3} Finset.univ ∅ = {1, 2, 3} := by
  have hc : Fintype.card (Fin 7) = 6 + 1 := rfl
  rw [getReachableStates, hc, Function.iterate_succ_apply, reachL_c3,
    Function.iterate_fixed reachL_cfix]

theorem reachL_b1 : reachStep pL Finset.univ ∅ ({4} : Finset (Fin 7)) = {4, 5, 6} := by
  rw [reachStep]
  ext t
  fin_cases t <;> simp [pL]

theorem reachL_b2 : reachStep pL Finset.univ ∅ ({5} : Finset (Fin 7)) = {4, 5, 6} := by
  rw [reachStep]
  ext t
  fin_cases t <;> simp [pL]

theorem reachL_b3 : reachStep pL Finset.univ ∅ ({6} : Finset (Fin 7)) = {4, 5, 6} := by
  rw [reachStep]
  ext t
  fin_cases t <;> simp [pL]

theorem reachL_bfix : reachStep pL Finset.univ ∅ ({4, 5, 6} : Finset (Fin 7))
    = {4, 5, 6} := by
  rw [reachStep]
  ext t
  fin_cases t <;> simp [pL]

theorem reachL_from4 : getReachableStates pL {4} Finset.univ ∅ = {4, 5, 6} := by
  have hc : Fintype.card (Fin 7) = 6 + 1 := rfl
  rw [getReachableStates, hc, Function.iterate_succ_apply, reachL_b1,
    Function.iterate_fixed reachL_bfix]

theorem reachL_from5 : getReachableStates pL {5} Finset.univ ∅ = {4, 5, 6} := by
  have hc : Fintype.card (Fin 7) = 6 + 1 := rfl
  rw [getReachableStates, hc, Function.iterate_succ_apply, reachL_b2,
    Function.iterate_fixed reachL_bfix]

theorem reachL_from6 : getReachableStates pL {6} Finset.univ ∅ = {4, 5, 6} := by
  have hc : Fintype.card (Fin 7) = 6 + 1 := rfl
  rw [getReachableStates, hc, Function.iterate_succ_apply, reachL_b3,
    Function.iterate_fixed reachL_bfix]

theorem sccL_1 : sccOf pL 1 = {1, 2, 3} := by
  rw [sccOf, reachL_from1]
  ext t
  fin_cases t <;> simp [reachL_from1, reachL_from2, reachL_from3]

theorem sccL_0 : sccOf pL 0 = {0} := by
  rw [sccOf, reachL_univ0]
  ext t
  fin_cases t <;> simp [reachL_univ0, reachL_from1, reachL_from2, reachL_from3,
    reachL_from4, reachL_from5, reachL_from6]

theorem bottomL_1 : isInBottomScc pL 1 := by
  rw [isInBottomScc, reachL_from1, sccL_1]

theorem not_bottomL_0 : ¬ isInBottomScc pL 0 := by
  rw [isInBottomScc, reachL_univ0, sccL_0]
  decide

theorem bsccRepL_1 : bsccRep pL 1 = 1 := by
  rw [bsccRep, sccL_1]
  decide

theorem relevantL_1 : relevantBsccState pL ({0, 1, 2, 3} : Finset (Fin 7)) 1 := by
  rw [relevantBsccState, bsccRepL_1]
  exact ⟨bottomL_1, by decide⟩

theorem representativeL_1 : isBsccRepresentative pL ({0, 1, 2, 3} : Finset (Fin 7)) 1 :=
  ⟨relevantL_1, by rw [bsccRepL_1]⟩

theorem not_representativeL_0 :
    ¬ isBsccRepresentative pL ({0, 1, 2, 3} : Finset (Fin 7)) 0 := by
  intro h
  exact not_bottomL_0 h.1.1

theorem not_regularL_0 : ¬ isRegularBsccState pL ({0, 1, 2, 3} : Finset (Fin 7)) 0 := by
  intro h
  exact not_bottomL_0 h.1.1

theorem phase1L_M00 : (longRunPhase1 pL ({0, 1, 2, 3} : Finset (Fin 7))
    (fun s => if s ∈ psiL then 1 else 0) [2, 3]).1 0 0 = 0 := by
  simp [longRunPhase1, eliminateRegularBsccStates, eliminateStateLRA,
    eliminateState, longRunSubmatrix, pL, psiL]

theorem phase1L_M01 : (longRunPhase1 pL ({0, 1, 2, 3} : Finset (Fin 7))
    (fun s => if s ∈ psiL then 1 else 0) [2, 3]).1 0 1 = 1/4 := by
  simp [longRunPhase1, eliminateRegularBsccStates, eliminateStateLRA,
    eliminateState, longRunSubmatrix, pL, psiL]

theorem phase1L_vals1 : (longRunPhase1 pL ({0, 1, 2, 3} : Finset (Fin 7))
    (fun s => if s ∈ psiL then 1 else 0) [2, 3]).2.1 1 = 1 := by
  simp [longRunPhase1, eliminateRegularBsccStates, eliminateStateLRA,
    eliminateState, longRunSubmatrix, pL, psiL]

theorem phase1L_time1 : (longRunPhase1 pL ({0, 1, 2, 3} : Finset (Fin 7))
    (fun s => if s ∈ psiL then 1 else 0) [2, 3]).2.2 1 = 3 := by
  simp [longRunPhase1, eliminateRegularBsccStates, eliminateStateLRA,
    eliminateState, longRunSubmatrix, pL, psiL]
  norm_num

theorem pg0L_step1 : pg0Step pL Finset.univ psiL = {0, 1, 2, 3} := by
  rw [pg0Step]
  ext t
  fin_cases t <;> simp [pL, psiL]

theorem pg0L_fix : pg0Step pL Finset.univ ({0, 1, 2, 3} : Finset (Fin 7))
    = {0, 1, 2, 3} := by
  rw [pg0Step]
  ext t
  fin_cases t <;> simp [pL]

theorem pg0L : performProbGreater0 pL Finset.univ psiL = {0, 1, 2, 3} := by
  have hc : Fintype.card (Fin 7) = 6 + 1 := rfl
  rw [performProbGreater0, hc, Function.iterate_succ_apply, pg0L_step1,
    Function.iterate_fixed pg0L_fix]

theorem computeLongRunValues_concrete :
    computeLongRunValues pL initialL ({0, 1, 2, 3} : Finset (Fin 7)) true
      (fun s => if s ∈ psiL then 1 else 0) [2, 3] [0, 1] 0 = 1 / 12 := by
  rw [computeLongRunValues,
    if_pos ⟨1, Finset.mem_filter.mpr ⟨Finset.mem_univ 1, representativeL_1⟩⟩]
  set M2 := longRunPhase2Matrix pL ({0, 1, 2, 3} : Finset (Fin 7))
    (longRunPhase1 pL ({0, 1, 2, 3} : Finset (Fin 7))
      (fun s => if s ∈ psiL then 1 else 0) [2, 3]).1 with hM2def
  set v3 := longRunZeroTransient pL ({0, 1, 2, 3} : Finset (Fin 7))
    (longRunBsccAssignment pL ({0, 1, 2, 3} : Finset (Fin 7)) true
      (longRunPhase1 pL ({0, 1, 2, 3} : Finset (Fin 7))
        (fun s => if s ∈ psiL then 1 else 0) [2, 3]).2.1
      (longRunPhase1 pL ({0, 1, 2, 3} : Finset (Fin 7))
        (fun s => if s ∈ psiL then 1 else 0) [2, 3]).2.2) with hv3def
  have hM2a : M2 0 0 = 0 := by
    simp only [hM2def, longRunPhase2Matrix]
    rw [if_neg not_representativeL_0]
    exact phase1L_M00
  have hM2b : M2 0 1 = 1 / 4 := by
    simp only [hM2def, longRunPhase2Matrix]
    rw [if_neg not_representativeL_0]
    exact phase1L_M01
  have hM2c : ∀ b, M2 1 b = 0 := by
    intro b
    simp only [hM2def, longRunPhase2Matrix]
    rw [if_pos representativeL_1]
  have hv3a : v3 0 = 0 := by
    simp only [hv3def, longRunZeroTransient]
    rw [if_pos ⟨by decide, not_regularL_0, not_representativeL_0⟩]
  have hv3b : v3 1 = 1 / 3 := by
    simp only [hv3def, longRunZeroTransient, longRunBsccAssignment]
    rw [if_neg (fun h => h.2.2 representativeL_1), if_pos relevantL_1,
      if_pos trivial, if_pos bsccRepL_1.symm, bsccRepL_1, phase1L_vals1,
      phase1L_time1]
  clear_value M2 v3
  simp [performPrioritizedStateElimination, eliminateState, initialL,
    Function.update, hM2a, hM2b, hM2c, hv3a, hv3b]
  norm_num

/-- C8.  In the long-run solver, the value assigned to each relevant BSCC
(delivered to its representative, and in all-states mode to every BSCC state)
is `stateValues[representative] / averageTimeInStates[representative]`; and
on the spec's concrete instance — two disjoint 3-cycles with uniform 1/3
transition probabilities and a transient state `s0` jumping to cycle A with
probability 1/4 and to cycle B with probability 3/4, with `psi` labelling one
state of cycle A — the long-run probability returned for `s0` is 1/12. -/
theorem computeLongRunValues_correct {σ : Type} [Fintype σ] [DecidableEq σ]
    [LinearOrder σ] {V : Type} [Field V] [DecidableEq V] :
    (∀ (p : σ → σ → V) (maybeStates : Finset σ) (flag : Bool) (vals time : σ → V)
      (r : σ), relevantBsccState p maybeStates r → r = bsccRep p r →
      longRunBsccAssignment p maybeStates flag vals time r = vals r / time r) ∧
    (computeLongRunAverageProbabilities pL psiL initialL [2, 3] [0, 1] 0 = 1 / 12) := by
  constructor
  · intro p maybeStates flag vals time r hrel hrep
    rw [longRunBsccAssignment, if_pos hrel, ← hrep]
    cases flag
    · rw [if_neg (by simp)]
    · rw [if_pos (by simp), if_pos rfl]
  · have h1 : computeLongRunAverageProbabilities pL psiL initialL [2, 3] [0, 1]
        = computeLongRunValues pL initialL ({0, 1, 2, 3} : Finset (Fin 7)) true
          (fun s => if s ∈ psiL then 1 else 0) [2, 3] [0, 1] := by
      rw [computeLongRunAverageProbabilities]
      rw [if_neg (by decide : ¬psiL = ∅),
        if_neg (by decide : ¬psiL = (Finset.univ : Finset (Fin 7)))]
      simp only [pg0L, initialL, reachL_univ0, Finset.inter_univ]
      rw [if_neg
        (by decide : ¬({0} : Finset (Fin 7)) ∩ ({0, 1, 2, 3} : Finset (Fin 7)) = ∅)]
    rw [h1, computeLongRunValues_concrete]

/-- Witness for C8: the collapse formula applied at the representative of
cycle A of the concrete chain, with sample value and time vectors. -/
theorem computeLongRunValues_correct_witness :
    longRunBsccAssignment pL ({0, 1, 2, 3} : Finset (Fin 7)) true
      (fun _ => (1 : ℚ)) (fun _ => 2) 1 = 1 / 2 := by
  have h := computeLongRunValues_correct.1 pL ({0, 1, 2, 3} : Finset (Fin 7)) true
    (fun _ => (1 : ℚ)) (fun _ => 2) 1 relevantL_1 bsccRepL_1.symm
  rw [h]

end LongRunCorrect

/-! ### State vs Hybrid elimination diverge with `EliminateEntryStatesLast` off (C6) -/

section HybridDiverge

/-- C6 (refuted).  On the one-maybe-state system (self-loop 1/2, one-step
value 1/4, the single state initial, initial-states-only mode), the `State`
method returns the exact value 1/2 for the initial state, while the `Hybrid`
method with the `EliminateEntryStatesLast` policy off returns 1/4: `treatScc`
is entered with `eliminateEntryStates = false`, pushes the top-level entry
states (the initial states) onto `entryStateQueue`, and the queue is only
eliminated when the policy is set — so the initial state is never eliminated.
Its self-loop also remains in the flexible matrix, contradicting the
driver's own `flexibleMatrix.empty()` assertion. -/
theorem computeReachabilityValues_state_hybrid_diverge :
    (computeReachabilityValues EliminationMethod.state pH chooseOrderH {0} true 20
        false valsH).2 0 = 1/2 ∧
    (computeReachabilityValues EliminationMethod.hybrid pH chooseOrderH {0} true 20
        false valsH).2 0 = 1/4 ∧
    (computeReachabilityValues EliminationMethod.hybrid pH chooseOrderH {0} true 20
        false valsH).1 0 0 = 1/2 := by
  have huniv : (Finset.univ : Finset (Fin 1)) = {0} := by decide
  have hord : chooseOrderH Finset.univ = [0] := by
    simp only [chooseOrderH]
    rw [huniv, Finset.sort_singleton]
  have hord3 : chooseOrderH ∅ = [] := by
    simp only [chooseOrderH]
    rw [Finset.sort_empty]
  have hcard : Fintype.card (Fin 1) + 1 = 1 + 1 := rfl
  refine ⟨?_, ?_, ?_⟩
  · rw [computeReachabilityValues, hord]
    simp [performPrioritizedStateElimination, eliminateState, pH, valsH]
    norm_num
  · rw [computeReachabilityValues, performHybridStateElimination, hcard]
    rw [treatScc]
    simp [hord3, performPrioritizedStateElimination, pH, valsH]
  · rw [computeReachabilityValues, performHybridStateElimination, hcard]
    rw [treatScc]
    simp [hord3, performPrioritizedStateElimination, pH, valsH]

end HybridDiverge

end Storm
